import Mathlib

/-!
Shallow embedding of `src/main.rs` (repository `calculate_outputs`).

Real numbers (`f64` in the source) are modelled by `ℚ`; the cast
`(x : f64) as i64` truncates toward zero and is modelled by `truncQ`.
The source's side effects (printing) are ignored; the `BinaryHeap` of the
Rust standard library is embedded by its array algorithms (`sift_up`,
`sift_down_to_bottom`) specialised to the `Ord` instance of `Node`, and the
`HashMap` used as visited table is embedded as an association list with
replacement on insert (the map is only queried pointwise, never iterated).
The search loop is driven by explicit fuel; `none` means out of fuel,
`some none` is the EXHAUSTED outcome and `some (some _)` is SUCCESS.
-/

attribute [local semireducible] Rat.add Rat.mul Rat.inv Rat.sub

/-- Truncation of a rational toward zero, the rounding of Rust's `as i64` cast. -/
def truncQ (q : ℚ) : ℤ := if 0 ≤ q then ⌊q⌋ else -⌊-q⌋

/-- The constant `SCALE: f64 = 1000.0`. -/
def SCALE : ℚ := 1000

/-- The constant `MAX_DEPTH: usize = 6`. -/
def MAX_DEPTH : ℕ := 6

/-- `fn scale_value(value: f64) -> i64 { (value * SCALE) as i64 }`. -/
def scale_value (value : ℚ) : ℤ := truncQ (value * SCALE)

/-- The expression `v as f64 / SCALE` used throughout the source to unscale a value. -/
def unscale (v : ℤ) : ℚ := (v : ℚ) / SCALE

/-- `fn calculate_heuristic(values: &[i64], target: i64) -> i64`. -/
def calculate_heuristic (values : List ℤ) (target : ℤ) : ℤ :=
  (values.map (fun v => |v - target|)).sum

/-- `fn split_into_two(input: f64) -> (f64, f64)`. -/
def split_into_two (input : ℚ) : ℚ × ℚ := (input / 2, input / 2)

/-- `fn split_into_three(input: f64) -> (f64, f64, f64)`. -/
def split_into_three (input : ℚ) : ℚ × ℚ × ℚ := (input / 3, input / 3, input / 3)

/-- `fn combine_two(a: f64, b: f64) -> f64`. -/
def combine_two (a b : ℚ) : ℚ := a + b

/-- `fn combine_three(a: f64, b: f64, c: f64) -> f64`. -/
def combine_three (a b c : ℚ) : ℚ := a + b + c

/-- The loop of `find_final_and_remainder`: classify each value into
`final_values` (within `margin` of `target`) or `remainder`, preserving order. -/
def partitionVals (values : List ℤ) (target margin : ℤ) : List ℤ × List ℤ :=
  match values with
  | [] => ([], [])
  | v :: rest =>
    let p := partitionVals rest target margin
    if |v - target| ≤ margin then (v :: p.1, p.2) else (p.1, v :: p.2)

/-- `fn find_final_and_remainder(values: &[i64], target: i64, margin: i64)
-> Option<(Vec<i64>, Vec<i64>)>`. -/
def find_final_and_remainder (values : List ℤ) (target margin : ℤ) :
    Option (List ℤ × List ℤ) :=
  if (partitionVals values target margin).1.isEmpty then none
  else some (partitionVals values target margin)

/-- One `PathStep` of the source is a formatted string recording the operands and
results of one operation; it is embedded as a constructor carrying those numbers. -/
inductive PathStep where
  | splitTwo (v p1 p2 : ℚ)
  | splitThree (v p1 p2 p3 : ℚ)
  | combineTwo (a b s : ℚ)
  | combineThree (a b c s : ℚ)
deriving DecidableEq

/-- `struct Node` of the source. -/
structure Node where
  values : List ℤ
  path : List PathStep
  depth : ℕ
  estimated_cost : ℤ
deriving DecidableEq

instance : Inhabited Node := ⟨⟨[], [], 0, 0⟩⟩

/-- The comparison `a <= b` under the source's custom `Ord for Node`
(`other.estimated_cost.cmp(&self.estimated_cost)`, giving min-heap behaviour):
`a <= b` holds exactly when `b.estimated_cost ≤ a.estimated_cost`. -/
def heapLE (a b : Node) : Bool := decide (b.estimated_cost ≤ a.estimated_cost)

/-- `BinaryHeap::sift_up` of the Rust standard library: the hole at `pos` holds
element `x`; move parents down until `x` fits, then place `x`.  Returns the new
array and the final hole position.  `fuel` dominates `pos` and only bounds the
structural recursion. -/
def siftUpGo : ℕ → List Node → Node → ℕ → ℕ → List Node × ℕ
  | 0, data, x, _, pos => (data.set pos x, pos)
  | fuel + 1, data, x, start, pos =>
    if pos ≤ start then (data.set pos x, pos)
    else
      let parent := (pos - 1) / 2
      if heapLE x (data.getD parent default) then (data.set pos x, pos)
      else siftUpGo fuel (data.set pos (data.getD parent default)) x start parent

/-- `BinaryHeap::push`: append the element and sift it up from the last position. -/
def heapPush (data : List Node) (x : Node) : List Node :=
  (siftUpGo (data.length + 1) (data ++ [x]) x 0 data.length).1

/-- The hole-to-bottom phase of `BinaryHeap::sift_down_to_bottom`: move the hole
at `pos` down along the larger-child path to the bottom of the heap of size
`stop`, returning the new array and the final hole position. -/
def siftDownGo : ℕ → List Node → ℕ → ℕ → List Node × ℕ
  | 0, data, pos, _ => (data, pos)
  | fuel + 1, data, pos, stop =>
    let child := 2 * pos + 1
    if child + 1 < stop then
      let child2 :=
        if heapLE (data.getD child default) (data.getD (child + 1) default) then child + 1
        else child
      siftDownGo fuel (data.set pos (data.getD child2 default)) child2 stop
    else if child + 1 = stop then (data.set pos (data.getD child default), child)
    else (data, pos)

/-- `BinaryHeap::pop`: remove the last element, swap it into the root, return the
old root and restore the heap with `sift_down_to_bottom` (hole to the bottom,
then `sift_up` with the swapped-in element). -/
def heapPop (data : List Node) : Option (Node × List Node) :=
  if data.isEmpty then none
  else if data.dropLast.isEmpty then some (data.getLastD default, [])
  else
    some (data.dropLast.getD 0 default,
      (siftUpGo data.dropLast.length
        (siftDownGo data.dropLast.length data.dropLast 0 data.dropLast.length).1
        (data.getLastD default) 0
        (siftDownGo data.dropLast.length data.dropLast 0 data.dropLast.length).2).1)

/-- Lookup in the visited `HashMap<Vec<i64>, usize>`, embedded as an association list. -/
def lookupA (m : List (List ℤ × ℕ)) (k : List ℤ) : Option ℕ :=
  match m with
  | [] => none
  | e :: rest => if e.1 = k then some e.2 else lookupA rest k

/-- `HashMap::insert`: record `k ↦ d`, replacing any previous entry for `k`. -/
def insertA (m : List (List ℤ × ℕ)) (k : List ℤ) (d : ℕ) : List (List ℤ × ℕ) :=
  (k, d) :: m.filter (fun e => decide (e.1 ≠ k))

/-- Successor state for "split into two" at index `i`: remove the value, split it
in the real domain and push the two rescaled halves. -/
def splitTwoVals (vals : List ℤ) (i : ℕ) : List ℤ :=
  let parts := split_into_two (unscale (vals.getD i 0))
  vals.eraseIdx i ++ [scale_value parts.1, scale_value parts.2]

/-- The `PathStep` recorded for "split into two" at index `i`. -/
def splitTwoStep (vals : List ℤ) (i : ℕ) : PathStep :=
  let parts := split_into_two (unscale (vals.getD i 0))
  PathStep.splitTwo (unscale (vals.getD i 0)) parts.1 parts.2

/-- Successor state for "split into three" at index `i`. -/
def splitThreeVals (vals : List ℤ) (i : ℕ) : List ℤ :=
  let parts := split_into_three (unscale (vals.getD i 0))
  vals.eraseIdx i ++ [scale_value parts.1, scale_value parts.2.1, scale_value parts.2.2]

/-- The `PathStep` recorded for "split into three" at index `i`. -/
def splitThreeStep (vals : List ℤ) (i : ℕ) : PathStep :=
  let parts := split_into_three (unscale (vals.getD i 0))
  PathStep.splitThree (unscale (vals.getD i 0)) parts.1 parts.2.1 parts.2.2

/-- Successor state for "combine two" at indices `i < j`: remove index `i`, then
index `j - 1` (the source adjusts the index after the first removal), and push
the rescaled real-domain sum. -/
def combineTwoVals (vals : List ℤ) (i j : ℕ) : List ℤ :=
  let combined := combine_two (unscale (vals.getD i 0)) (unscale (vals.getD j 0))
  (vals.eraseIdx i).eraseIdx (j - 1) ++ [scale_value combined]

/-- The `PathStep` recorded for "combine two". -/
def combineTwoStep (vals : List ℤ) (i j : ℕ) : PathStep :=
  let combined := combine_two (unscale (vals.getD i 0)) (unscale (vals.getD j 0))
  PathStep.combineTwo (unscale (vals.getD i 0)) (unscale (vals.getD j 0)) combined

/-- Successor state for "combine three" at indices `i < j < k`: remove indices
`i`, `j - 1`, `k - 2` and push the rescaled real-domain sum. -/
def combineThreeVals (vals : List ℤ) (i j k : ℕ) : List ℤ :=
  let combined :=
    combine_three (unscale (vals.getD i 0)) (unscale (vals.getD j 0)) (unscale (vals.getD k 0))
  ((vals.eraseIdx i).eraseIdx (j - 1)).eraseIdx (k - 2) ++ [scale_value combined]

/-- The `PathStep` recorded for "combine three". -/
def combineThreeStep (vals : List ℤ) (i j k : ℕ) : PathStep :=
  let combined :=
    combine_three (unscale (vals.getD i 0)) (unscale (vals.getD j 0)) (unscale (vals.getD k 0))
  PathStep.combineThree (unscale (vals.getD i 0)) (unscale (vals.getD j 0))
    (unscale (vals.getD k 0)) combined

/-- All successor states generated when expanding index `i` of a state, in the
source's order: split in two, split in three, all "combine two" partners
`j > i`, then all "combine three" pairs `j > i`, `k > j`. -/
def childPairsAt (vals : List ℤ) (i : ℕ) : List (List ℤ × PathStep) :=
  [(splitTwoVals vals i, splitTwoStep vals i), (splitThreeVals vals i, splitThreeStep vals i)]
    ++ (List.range' (i + 1) (vals.length - (i + 1))).map
        (fun j => (combineTwoVals vals i j, combineTwoStep vals i j))
    ++ (List.range' (i + 1) (vals.length - (i + 1))).flatMap
        (fun j => (List.range' (j + 1) (vals.length - (j + 1))).map
          (fun k => (combineThreeVals vals i j k, combineThreeStep vals i j k)))

/-- All successor states of a state, iterating `i` over all indices in order. -/
def succList (vals : List ℤ) : List (List ℤ × PathStep) :=
  (List.range vals.length).flatMap (childPairsAt vals)

/-- The search configuration: the frontier (`BinaryHeap` array) and the visited table. -/
structure Cfg where
  queue : List Node
  visited : List (List ℤ × ℕ)
deriving DecidableEq

/-- The guard `!visited.contains_key(&v) || visited[&v] > depth` of the source. -/
def shouldPush (visited : List (List ℤ × ℕ)) (nv : List ℤ) (nd : ℕ) : Bool :=
  match lookupA visited nv with
  | none => true
  | some d0 => decide (nd < d0)

/-- Conditionally push one successor: if the visited guard passes, push the new
`Node` (with heuristic priority) and record its depth in the visited table. -/
def pushIfBetter (tgt : ℤ) (c : Cfg) (nv : List ℤ) (np : List PathStep) (nd : ℕ) : Cfg :=
  if shouldPush c.visited nv nd then
    ⟨heapPush c.queue ⟨nv, np, nd, calculate_heuristic nv tgt⟩, insertA c.visited nv nd⟩
  else c

/-- Expansion of a popped node: generate every successor and conditionally push
each, in the source's order. -/
def expand (tgt : ℤ) (cur : Node) (c : Cfg) : Cfg :=
  (succList cur.values).foldl
    (fun c' sp => pushIfBetter tgt c' sp.1 (cur.path ++ [sp.2]) (cur.depth + 1)) c

/-- Result of one iteration of the `while let Some(current) = priority_queue.pop()` loop. -/
inductive StepRes where
  | found (answer : List ℚ × List ℚ × List PathStep)
  | exhausted
  | next (c : Cfg)
deriving DecidableEq

/-- One iteration of the search loop: pop the minimum-priority node; return it
unscaled if the terminal test succeeds; otherwise expand it unless it is at the
depth horizon. -/
def searchStep (tgt mgn : ℤ) (c : Cfg) : StepRes :=
  match heapPop c.queue with
  | none => .exhausted
  | some (cur, rest) =>
    match find_final_and_remainder cur.values tgt mgn with
    | some fr => .found (fr.1.map unscale, fr.2.map unscale, cur.path)
    | none =>
      if MAX_DEPTH ≤ cur.depth then .next ⟨rest, c.visited⟩
      else .next (expand tgt cur ⟨rest, c.visited⟩)

/-- The search loop, driven by fuel: `none` is out of fuel, `some none` is the
EXHAUSTED outcome and `some (some a)` is SUCCESS with answer `a`. -/
def searchLoop (tgt mgn : ℤ) : ℕ → Cfg → Option (Option (List ℚ × List ℚ × List PathStep))
  | 0, _ => none
  | fuel + 1, c =>
    match searchStep tgt mgn c with
    | .found a => some (some a)
    | .exhausted => some none
    | .next c' => searchLoop tgt mgn fuel c'

/-- The initial configuration: the root node built from the scaled inputs at
depth 0, pushed on the frontier and recorded in the visited table. -/
def initialCfg (inputs : List ℚ) (tgt : ℤ) : Cfg :=
  let startVals := inputs.map scale_value
  ⟨heapPush [] ⟨startVals, [], 0, calculate_heuristic startVals tgt⟩, [(startVals, 0)]⟩

/-- `fn shortest_path_to_target(inputs: Vec<f64>, target: f64, can_be_off_by: f64)
-> Option<(Vec<f64>, Vec<f64>, Vec<String>)>`, with explicit fuel for the loop. -/
def shortest_path_to_target (fuel : ℕ) (inputs : List ℚ) (target can_be_off_by : ℚ) :
    Option (Option (List ℚ × List ℚ × List PathStep)) :=
  searchLoop (scale_value target) (scale_value can_be_off_by) fuel
    (initialCfg inputs (scale_value target))

/-! ### Basic facts about truncation and scaling -/

theorem truncQ_intCast (z : ℤ) : truncQ (z : ℚ) = z := by
  unfold truncQ
  by_cases h : 0 ≤ (z : ℚ)
  · rw [if_pos h, Int.floor_intCast]
  · rw [if_neg h, ← Int.cast_neg, Int.floor_intCast, neg_neg]

theorem truncQ_nonneg_of (q : ℚ) (h : 0 ≤ q) : truncQ q = ⌊q⌋ := by
  unfold truncQ; rw [if_pos h]

theorem truncQ_neg_of (q : ℚ) (h : ¬ 0 ≤ q) : truncQ q = -⌊-q⌋ := by
  unfold truncQ; rw [if_neg h]

theorem abs_truncQ_le (q : ℚ) : |(truncQ q : ℚ)| ≤ |q| := by
  by_cases h : 0 ≤ q
  · rw [truncQ_nonneg_of q h, abs_of_nonneg h,
      abs_of_nonneg (by exact_mod_cast Int.floor_nonneg.mpr h)]
    exact Int.floor_le q
  · push_neg at h
    rw [truncQ_neg_of q (not_le.mpr h), abs_of_neg h]
    have h1 : (0 : ℤ) ≤ ⌊-q⌋ := Int.floor_nonneg.mpr (by linarith)
    rw [Int.cast_neg, abs_neg, abs_of_nonneg (by exact_mod_cast h1)]
    exact Int.floor_le (-q)

theorem abs_truncQ_sub_lt (q : ℚ) : |(truncQ q : ℚ) - q| < 1 := by
  by_cases h : 0 ≤ q
  · rw [truncQ_nonneg_of q h, abs_sub_comm,
      abs_of_nonneg (by linarith [Int.floor_le q])]
    linarith [Int.lt_floor_add_one q]
  · push_neg at h
    rw [truncQ_neg_of q (not_le.mpr h), Int.cast_neg,
      abs_of_nonneg (by linarith [Int.floor_le (-q)])]
    linarith [Int.lt_floor_add_one (-q)]

theorem SCALE_pos : (0 : ℚ) < SCALE := by norm_num [SCALE]

theorem scale_unscale (v : ℤ) : scale_value (unscale v) = v := by
  have h : unscale v * SCALE = (v : ℚ) := by
    rw [unscale, SCALE]; field_simp
  rw [scale_value, h, truncQ_intCast]

/-- The value produced by a "split into two" child slot, expressed as a pure
integer truncation. -/
theorem scale_half (v : ℤ) : scale_value (unscale v / 2) = truncQ ((v : ℚ) / 2) := by
  rw [scale_value, unscale, SCALE]
  congr 1
  field_simp
  ring

/-- The value produced by a "split into three" child slot, expressed as a pure
integer truncation. -/
theorem scale_third (v : ℤ) : scale_value (unscale v / 3) = truncQ ((v : ℚ) / 3) := by
  rw [scale_value, unscale, SCALE]
  congr 1
  field_simp
  ring

/-- Combining two values is exact: rescaling the sum of the unscaled values
gives the integer sum. -/
theorem scale_combine_two (a b : ℤ) :
    scale_value (combine_two (unscale a) (unscale b)) = a + b := by
  have h : combine_two (unscale a) (unscale b) * SCALE = ((a + b : ℤ) : ℚ) := by
    rw [combine_two, unscale, unscale, SCALE]
    push_cast; field_simp
  rw [scale_value, h, truncQ_intCast]

/-- Combining three values is exact. -/
theorem scale_combine_three (a b c : ℤ) :
    scale_value (combine_three (unscale a) (unscale b) (unscale c)) = a + b + c := by
  have h : combine_three (unscale a) (unscale b) (unscale c) * SCALE = ((a + b + c : ℤ) : ℚ) := by
    rw [combine_three, unscale, unscale, unscale, SCALE]
    push_cast; field_simp
  rw [scale_value, h, truncQ_intCast]

theorem two_truncQ_half (v : ℤ) : |2 * truncQ ((v : ℚ) / 2) - v| ≤ 1 := by
  have h := abs_lt.mp (abs_truncQ_sub_lt ((v : ℚ) / 2))
  have h2 : |(2 * truncQ ((v : ℚ) / 2) - v : ℤ)| < (2 : ℚ) := by
    push_cast
    rw [abs_lt]
    constructor <;> linarith [h.1, h.2]
  have h3 : |(2 * truncQ ((v : ℚ) / 2) - v : ℤ)| < 2 := by exact_mod_cast h2
  omega

theorem three_truncQ_third (v : ℤ) : |3 * truncQ ((v : ℚ) / 3) - v| ≤ 2 := by
  have h := abs_lt.mp (abs_truncQ_sub_lt ((v : ℚ) / 3))
  have h2 : |(3 * truncQ ((v : ℚ) / 3) - v : ℤ)| < (3 : ℚ) := by
    push_cast
    rw [abs_lt]
    constructor <;> linarith [h.1, h.2]
  have h3 : |(3 * truncQ ((v : ℚ) / 3) - v : ℤ)| < 3 := by exact_mod_cast h2
  omega

theorem two_abs_truncQ_half (v : ℤ) : 2 * |truncQ ((v : ℚ) / 2)| ≤ |v| := by
  have h := abs_truncQ_le ((v : ℚ) / 2)
  have h2 : (2 * |truncQ ((v : ℚ) / 2)| : ℚ) ≤ (|v| : ℤ) := by
    push_cast
    rw [abs_div] at h
    rw [show |(2 : ℚ)| = 2 by norm_num] at h
    linarith
  exact_mod_cast h2

theorem three_abs_truncQ_third (v : ℤ) : 3 * |truncQ ((v : ℚ) / 3)| ≤ |v| := by
  have h := abs_truncQ_le ((v : ℚ) / 3)
  have h2 : (3 * |truncQ ((v : ℚ) / 3)| : ℚ) ≤ (|v| : ℤ) := by
    push_cast
    rw [abs_div] at h
    rw [show |(3 : ℚ)| = 3 by norm_num] at h
    linarith
  exact_mod_cast h2

/-! ### The terminal test is a stable partition -/

theorem partitionVals_eq_filter (values : List ℤ) (t m : ℤ) :
    partitionVals values t m =
      (values.filter (fun v => decide (|v - t| ≤ m)),
       values.filter (fun v => !decide (|v - t| ≤ m))) := by
  induction values with
  | nil => rfl
  | cons v rest ih =>
    by_cases h : |v - t| ≤ m <;>
      simp [partitionVals, ih, List.filter_cons, h]

theorem partitionVals_perm (values : List ℤ) (t m : ℤ) :
    ((partitionVals values t m).1 ++ (partitionVals values t m).2).Perm values := by
  rw [partitionVals_eq_filter]
  exact List.filter_append_perm _ values

theorem partitionVals_first_mem (values : List ℤ) (t m : ℤ) :
    ∀ z ∈ (partitionVals values t m).1, |z - t| ≤ m := by
  rw [partitionVals_eq_filter]
  intro z hz
  simpa using (List.of_mem_filter hz)

theorem partitionVals_second_mem (values : List ℤ) (t m : ℤ) :
    ∀ z ∈ (partitionVals values t m).2, ¬ |z - t| ≤ m := by
  rw [partitionVals_eq_filter]
  intro z hz
  simpa using (List.of_mem_filter hz)

theorem find_final_none_iff (values : List ℤ) (t m : ℤ) :
    find_final_and_remainder values t m = none ↔ ∀ v ∈ values, ¬ |v - t| ≤ m := by
  unfold find_final_and_remainder
  by_cases h : (partitionVals values t m).1.isEmpty
  · rw [if_pos h, List.isEmpty_iff] at *
    simp only [true_iff]
    intro v hv hle
    have hmem : v ∈ (partitionVals values t m).1 := by
      rw [partitionVals_eq_filter]
      exact List.mem_filter.mpr ⟨hv, by simpa using hle⟩
    rw [h] at hmem
    exact (List.not_mem_nil v) hmem
  · rw [if_neg h]
    constructor
    · intro hc; exact absurd hc (by simp)
    · intro hall
      exfalso
      have hne : (partitionVals values t m).1 ≠ [] := by
        intro hnil; exact h (by rw [hnil]; rfl)
      rcases List.exists_mem_of_ne_nil _ hne with ⟨v, hv⟩
      rw [partitionVals_eq_filter] at hv
      have hm := List.mem_filter.mp hv
      exact hall v hm.1 (by simpa using hm.2)

theorem find_final_some_spec (values : List ℤ) (t m : ℤ) (f r : List ℤ)
    (h : find_final_and_remainder values t m = some (f, r)) :
    f = (partitionVals values t m).1 ∧ r = (partitionVals values t m).2 ∧
      (∀ z ∈ f, |z - t| ≤ m) ∧ (∀ z ∈ r, ¬ |z - t| ≤ m) ∧
      (f ++ r).Perm values ∧ f ≠ [] := by
  unfold find_final_and_remainder at h
  by_cases he : (partitionVals values t m).1.isEmpty
  · rw [if_pos he] at h; exact absurd h (by simp)
  · rw [if_neg he] at h
    have hfr : partitionVals values t m = (f, r) := Option.some_inj.mp h
    have hf : f = (partitionVals values t m).1 := by rw [hfr]
    have hr : r = (partitionVals values t m).2 := by rw [hfr]
    refine ⟨hf, hr, ?_, ?_, ?_, ?_⟩
    · rw [hf]; exact partitionVals_first_mem values t m
    · rw [hr]; exact partitionVals_second_mem values t m
    · rw [hf, hr]; exact partitionVals_perm values t m
    · intro hnil
      rw [hnil] at hf
      rw [← hf] at he
      exact he rfl

/-! ### The frontier operations permute their contents -/

theorem set_perm_cons {α : Type} [Inhabited α] (l : List α) (i : ℕ) (x : α) (hi : i < l.length) :
    (l.set i x).Perm (x :: l.eraseIdx i) := by
  induction l generalizing i with
  | nil => simp at hi
  | cons a t ih =>
    cases i with
    | zero => exact List.Perm.refl _
    | succ k =>
      have hk : k < t.length := by simpa using hi
      have h1 := (ih k hk).cons a
      exact h1.trans (List.Perm.swap x a (t.eraseIdx k))

theorem set_getD_eq_self {α : Type} [Inhabited α] (l : List α) (i : ℕ) (hi : i < l.length) :
    l.set i (l.getD i default) = l := by
  induction l generalizing i with
  | nil => simp at hi
  | cons a t ih =>
    cases i with
    | zero => rfl
    | succ k =>
      have hk : k < t.length := by simpa using hi
      simp only [List.getD_cons_succ, List.set]
      rw [ih k hk]

theorem perm_cons_eraseIdx {α : Type} [Inhabited α] (l : List α) (i : ℕ) (hi : i < l.length) :
    l.Perm (l.getD i default :: l.eraseIdx i) := by
  have h := set_perm_cons l i (l.getD i default) hi
  rw [set_getD_eq_self l i hi] at h
  exact h

/-- Moving the hole: overwriting position `i` with the value at `j` and then
writing `x` at `j` permutes to just writing `x` at `i`. -/
theorem set_set_perm {α : Type} [Inhabited α] (l : List α) (i j : ℕ) (x : α)
    (hi : i < l.length) (hj : j < l.length) (hij : i ≠ j) :
    ((l.set i (l.getD j default)).set j x).Perm (l.set i x) := by
  induction l generalizing i j with
  | nil => simp at hi
  | cons a t ih =>
    cases i with
    | zero =>
      cases j with
      | zero => exact absurd rfl hij
      | succ m =>
        have hm : m < t.length := by simpa using hj
        simp only [List.getD_cons_succ, List.set]
        have h1 := (set_perm_cons t m x hm).cons (t.getD m default)
        have h2 := (perm_cons_eraseIdx t m hm).symm.cons x
        exact (h1.trans (List.Perm.swap x (t.getD m default) (t.eraseIdx m))).trans h2
    | succ k =>
      cases j with
      | zero =>
        have hk : k < t.length := by simpa using hi
        simp only [List.getD_cons_zero, List.set]
        have h1 := (set_perm_cons t k a hk).cons x
        have h2 := ((set_perm_cons t k x hk).cons a).symm
        exact (h1.trans (List.Perm.swap a x (t.eraseIdx k))).trans h2
      | succ m =>
        have hk : k < t.length := by simpa using hi
        have hm : m < t.length := by simpa using hj
        simp only [List.getD_cons_succ, List.set]
        exact (ih k m hk hm (by omega)).cons a

theorem siftUpGo_perm (fuel : ℕ) :
    ∀ (data : List Node) (x : Node) (start pos : ℕ), pos < data.length →
      ((siftUpGo fuel data x start pos).1).Perm (data.set pos x) := by
  induction fuel with
  | zero => intro data x start pos _; exact List.Perm.refl _
  | succ f ih =>
    intro data x start pos hpos
    unfold siftUpGo
    by_cases h1 : pos ≤ start
    · rw [if_pos h1]
    · rw [if_neg h1]
      by_cases h2 : heapLE x (data.getD ((pos - 1) / 2) default)
      · rw [if_pos h2]
      · rw [if_neg h2]
        have hpos1 : 1 ≤ pos := by omega
        have hparent : (pos - 1) / 2 < pos := by omega
        have hparentlen : (pos - 1) / 2 < data.length := lt_trans hparent hpos
        have hlen : (data.set pos (data.getD ((pos - 1) / 2) default)).length = data.length :=
          List.length_set data pos _
        have hrec := ih (data.set pos (data.getD ((pos - 1) / 2) default)) x start
          ((pos - 1) / 2) (by rw [hlen]; exact hparentlen)
        exact hrec.trans (set_set_perm data pos ((pos - 1) / 2) x hpos hparentlen (by omega))

theorem siftDownGo_spec (fuel : ℕ) :
    ∀ (data : List Node) (pos stop : ℕ), pos < stop → stop ≤ data.length →
      (siftDownGo fuel data pos stop).2 < stop ∧
      (siftDownGo fuel data pos stop).1.length = data.length ∧
      ∀ x : Node,
        (((siftDownGo fuel data pos stop).1).set ((siftDownGo fuel data pos stop).2) x).Perm
          (data.set pos x) := by
  induction fuel with
  | zero =>
    intro data pos stop hps _
    exact ⟨hps, rfl, fun x => List.Perm.refl _⟩
  | succ f ih =>
    intro data pos stop hps hsl
    unfold siftDownGo
    by_cases h1 : 2 * pos + 1 + 1 < stop
    · rw [if_pos h1]
      set child2 := if heapLE (data.getD (2 * pos + 1) default)
        (data.getD (2 * pos + 1 + 1) default) then 2 * pos + 1 + 1 else 2 * pos + 1 with hc2
      have hchild2 : child2 < stop := by
        rw [hc2]; split <;> omega
      have hchild2gt : pos < child2 := by
        rw [hc2]; split <;> omega
      have hchild2len : child2 < data.length := lt_of_lt_of_le hchild2 hsl
      have hposlen : pos < data.length := lt_of_lt_of_le hps hsl
      have hlen : (data.set pos (data.getD child2 default)).length = data.length :=
        List.length_set data pos _
      have hrec := ih (data.set pos (data.getD child2 default)) child2 stop hchild2
        (by rw [hlen]; exact hsl)
      refine ⟨hrec.1, by rw [hrec.2.1, hlen], fun x => ?_⟩
      exact (hrec.2.2 x).trans (set_set_perm data pos child2 x hposlen hchild2len (by omega))
    · rw [if_neg h1]
      by_cases h2 : 2 * pos + 1 + 1 = stop
      · rw [if_pos h2]
        have hchildlen : 2 * pos + 1 < data.length := by omega
        have hposlen : pos < data.length := lt_of_lt_of_le hps hsl
        refine ⟨by omega, List.length_set data pos _, fun x => ?_⟩
        exact set_set_perm data pos (2 * pos + 1) x hposlen hchildlen (by omega)
      · rw [if_neg h2]
        exact ⟨hps, rfl, fun x => List.Perm.refl _⟩

theorem set_append_last (l : List Node) (y x : Node) :
    (l ++ [y]).set l.length x = l ++ [x] := by
  induction l with
  | nil => rfl
  | cons a t ih => simp [List.set, ih]

theorem heapPush_perm (data : List Node) (x : Node) :
    (heapPush data x).Perm (x :: data) := by
  unfold heapPush
  have hlen : data.length < (data ++ [x]).length := by simp
  have h := siftUpGo_perm (data.length + 1) (data ++ [x]) x 0 data.length hlen
  rw [set_append_last data x x] at h
  exact h.trans (List.perm_middle.trans (by simp))

theorem heapPush_length (data : List Node) (x : Node) :
    (heapPush data x).length = data.length + 1 := by
  have h := (heapPush_perm data x).length_eq
  simpa using h

theorem heapPop_eq_none_iff (data : List Node) : heapPop data = none ↔ data = [] := by
  cases data with
  | nil => simp [heapPop]
  | cons a t =>
    simp only [heapPop, List.isEmpty_cons, if_false, Bool.false_eq_true]
    constructor
    · intro h
      by_cases ht : (a :: t).dropLast.isEmpty <;> simp [ht] at h
    · intro h; exact absurd h (by simp)

theorem heapPop_singleton (x : Node) : heapPop [x] = some (x, []) := rfl

theorem heapPop_perm (data : List Node) (n : Node) (rest : List Node)
    (h : heapPop data = some (n, rest)) : data.Perm (n :: rest) := by
  have hne : data ≠ [] := by
    intro he
    rw [he] at h
    simp [heapPop] at h
  have hitem : data.getLastD default = data.getLast hne := by
    rw [List.getLastD_eq_getLast?, List.getLast?_eq_getLast data hne]
    rfl
  have hdata : data.dropLast ++ [data.getLastD default] = data := by
    rw [hitem]
    exact List.dropLast_append_getLast hne
  cases hrest0 : data.dropLast with
  | nil =>
    have hd : data = [data.getLastD default] := by
      conv_lhs => rw [← hdata]
      rw [hrest0, List.nil_append]
    rw [hd, heapPop_singleton] at h
    have hpair := Option.some_inj.mp h
    have hn : n = data.getLastD default := (congrArg Prod.fst hpair).symm
    have hr : rest = [] := (congrArg Prod.snd hpair).symm
    rw [hn, hr]
    conv_lhs => rw [hd]
  | cons b t =>
    have hpop : heapPop data = some (b,
        (siftUpGo (b :: t).length (siftDownGo (b :: t).length (b :: t) 0 (b :: t).length).1
          (data.getLastD default) 0
          (siftDownGo (b :: t).length (b :: t) 0 (b :: t).length).2).1) := by
      unfold heapPop
      rw [if_neg (by simpa using hne), hrest0, if_neg (by simp), List.getD_cons_zero]
    rw [hpop] at h
    have hstop : (0 : ℕ) < (b :: t).length := by simp
    have hspec := siftDownGo_spec (b :: t).length (b :: t) 0 (b :: t).length hstop (le_refl _)
    have hup := siftUpGo_perm (b :: t).length
      (siftDownGo (b :: t).length (b :: t) 0 (b :: t).length).1
      (data.getLastD default) 0
      (siftDownGo (b :: t).length (b :: t) 0 (b :: t).length).2
      (by rw [hspec.2.1]; exact hspec.1)
    have hcomp := hup.trans (hspec.2.2 (data.getLastD default))
    have hpair := Option.some_inj.mp h
    have hn : n = b := (congrArg Prod.fst hpair).symm
    have hr : rest = (siftUpGo (b :: t).length
        (siftDownGo (b :: t).length (b :: t) 0 (b :: t).length).1
        (data.getLastD default) 0
        (siftDownGo (b :: t).length (b :: t) 0 (b :: t).length).2).1 :=
      (congrArg Prod.snd hpair).symm
    have hrperm : rest.Perm (data.getLastD default :: t) := by
      rw [hr]
      exact hcomp
    have h3 : data.Perm (data.getLastD default :: b :: t) := by
      conv_lhs => rw [← hdata]
      rw [hrest0]
      have hpm : ((b :: t) ++ data.getLastD default :: ([] : List Node)).Perm
          (data.getLastD default :: ((b :: t) ++ [])) := List.perm_middle
      simpa using hpm
    have h4 : (data.getLastD default :: b :: t).Perm (b :: data.getLastD default :: t) :=
      List.Perm.swap b (data.getLastD default) t
    have h5 : (b :: data.getLastD default :: t).Perm (b :: rest) := (hrperm.symm).cons b
    rw [hn]
    exact (h3.trans h4).trans h5

/-! ### Successor generation: shapes, sums and sizes -/

theorem eraseIdx_getD_ge {α : Type} [Inhabited α] (l : List α) (i k : ℕ) (d : α)
    (hik : i ≤ k) (hk : k + 1 < l.length) : (l.eraseIdx i).getD k d = l.getD (k + 1) d := by
  induction l generalizing i k with
  | nil => simp at hk
  | cons a t ih =>
    cases i with
    | zero => simp [List.eraseIdx, List.getD_cons_succ]
    | succ i' =>
      cases k with
      | zero => omega
      | succ k' =>
        simp only [List.eraseIdx, List.getD_cons_succ]
        exact ih i' k' (by omega) (by simpa using hk)

theorem sum_eraseIdx (l : List ℤ) (i : ℕ) (hi : i < l.length) :
    (l.eraseIdx i).sum = l.sum - l.getD i 0 := by
  have hs := (perm_cons_eraseIdx l i hi).sum_eq
  simp only [List.sum_cons] at hs
  have hd : (default : ℤ) = 0 := rfl
  rw [hd] at hs
  omega

theorem length_eraseIdx_lt (l : List ℤ) (i : ℕ) (hi : i < l.length) :
    (l.eraseIdx i).length = l.length - 1 := by
  rw [List.length_eraseIdx, if_pos hi]

/-- Every element of `succList vals` is one of the four operation shapes, with
in-range indices. -/
theorem succList_mem_cases (vals : List ℤ) (p : List ℤ × PathStep) (hp : p ∈ succList vals) :
    (∃ i, i < vals.length ∧ p.1 = splitTwoVals vals i) ∨
    (∃ i, i < vals.length ∧ p.1 = splitThreeVals vals i) ∨
    (∃ i j, i < j ∧ j < vals.length ∧ p.1 = combineTwoVals vals i j) ∨
    (∃ i j k, i < j ∧ j < k ∧ k < vals.length ∧ p.1 = combineThreeVals vals i j k) := by
  unfold succList at hp
  rw [List.mem_flatMap] at hp
  obtain ⟨i, hi, hmem⟩ := hp
  rw [List.mem_range] at hi
  unfold childPairsAt at hmem
  rw [List.mem_append, List.mem_append] at hmem
  rcases hmem with (h1 | h2) | h3
  · rw [List.mem_cons, List.mem_cons] at h1
    rcases h1 with he | he | he
    · exact Or.inl ⟨i, hi, by rw [he]⟩
    · exact Or.inr (Or.inl ⟨i, hi, by rw [he]⟩)
    · simp at he
  · rw [List.mem_map] at h2
    obtain ⟨j, hj, he⟩ := h2
    rw [List.mem_range'] at hj
    obtain ⟨o, ho, hjo⟩ := hj
    refine Or.inr (Or.inr (Or.inl ⟨i, j, by omega, by omega, by rw [← he]⟩))
  · rw [List.mem_flatMap] at h3
    obtain ⟨j, hj, hmem2⟩ := h3
    rw [List.mem_range'] at hj
    obtain ⟨o, ho, hjo⟩ := hj
    rw [List.mem_map] at hmem2
    obtain ⟨k, hk, he⟩ := hmem2
    rw [List.mem_range'] at hk
    obtain ⟨o2, ho2, hko2⟩ := hk
    refine Or.inr (Or.inr (Or.inr ⟨i, j, k, by omega, by omega, by omega, by rw [← he]⟩))

theorem splitTwoVals_sum (vals : List ℤ) (i : ℕ) (hi : i < vals.length) :
    |(splitTwoVals vals i).sum - vals.sum| ≤ 2 := by
  simp only [splitTwoVals, split_into_two]
  rw [List.sum_append, sum_eraseIdx vals i hi]
  simp only [List.sum_cons, List.sum_nil]
  rw [scale_half]
  have h2 := abs_le.mp (two_truncQ_half (vals.getD i 0))
  rw [abs_le]
  constructor <;> linarith [h2.1, h2.2]

theorem splitThreeVals_sum (vals : List ℤ) (i : ℕ) (hi : i < vals.length) :
    |(splitThreeVals vals i).sum - vals.sum| ≤ 2 := by
  simp only [splitThreeVals, split_into_three]
  rw [List.sum_append, sum_eraseIdx vals i hi]
  simp only [List.sum_cons, List.sum_nil]
  rw [scale_third]
  have h2 := abs_le.mp (three_truncQ_third (vals.getD i 0))
  rw [abs_le]
  constructor <;> linarith [h2.1, h2.2]

theorem combineTwoVals_sum (vals : List ℤ) (i j : ℕ) (hij : i < j) (hj : j < vals.length) :
    (combineTwoVals vals i j).sum = vals.sum := by
  have hi : i < vals.length := lt_trans hij hj
  have hli : (vals.eraseIdx i).length = vals.length - 1 := length_eraseIdx_lt vals i hi
  have hj1 : j - 1 < (vals.eraseIdx i).length := by omega
  simp only [combineTwoVals]
  rw [List.sum_append, sum_eraseIdx _ (j - 1) hj1, sum_eraseIdx vals i hi]
  have hsh : (vals.eraseIdx i).getD (j - 1) 0 = vals.getD (j - 1 + 1) 0 :=
    eraseIdx_getD_ge vals i (j - 1) 0 (by omega) (by omega)
  have hj11 : j - 1 + 1 = j := by omega
  rw [hj11] at hsh
  rw [hsh, scale_combine_two]
  simp only [List.sum_cons, List.sum_nil]
  ring

theorem combineThreeVals_sum (vals : List ℤ) (i j k : ℕ)
    (hij : i < j) (hjk : j < k) (hk : k < vals.length) :
    (combineThreeVals vals i j k).sum = vals.sum := by
  have hj : j < vals.length := lt_trans hjk hk
  have hi : i < vals.length := lt_trans hij hj
  have hli : (vals.eraseIdx i).length = vals.length - 1 := length_eraseIdx_lt vals i hi
  have hj1 : j - 1 < (vals.eraseIdx i).length := by omega
  have hlij : ((vals.eraseIdx i).eraseIdx (j - 1)).length = vals.length - 2 := by
    rw [length_eraseIdx_lt _ (j - 1) hj1, hli]
    omega
  have hk2 : k - 2 < ((vals.eraseIdx i).eraseIdx (j - 1)).length := by omega
  simp only [combineThreeVals]
  rw [List.sum_append, sum_eraseIdx _ (k - 2) hk2, sum_eraseIdx _ (j - 1) hj1,
    sum_eraseIdx vals i hi]
  have hsh1 : (vals.eraseIdx i).getD (j - 1) 0 = vals.getD j 0 := by
    have h := eraseIdx_getD_ge vals i (j - 1) 0 (by omega) (by omega)
    have hj11 : j - 1 + 1 = j := by omega
    rw [hj11] at h
    exact h
  have hsh2 : ((vals.eraseIdx i).eraseIdx (j - 1)).getD (k - 2) 0 = vals.getD k 0 := by
    have h1 : ((vals.eraseIdx i).eraseIdx (j - 1)).getD (k - 2) 0 =
        (vals.eraseIdx i).getD (k - 2 + 1) 0 :=
      eraseIdx_getD_ge (vals.eraseIdx i) (j - 1) (k - 2) 0 (by omega) (by omega)
    have h2 : (vals.eraseIdx i).getD (k - 1) 0 = vals.getD (k - 1 + 1) 0 :=
      eraseIdx_getD_ge vals i (k - 1) 0 (by omega) (by omega)
    have e1 : k - 2 + 1 = k - 1 := by omega
    have e2 : k - 1 + 1 = k := by omega
    rw [e1] at h1
    rw [e2] at h2
    rw [h1, h2]
  rw [hsh1, hsh2, scale_combine_three]
  simp only [List.sum_cons, List.sum_nil]
  ring

/-- One operation changes the scaled sum of a state by at most 2 units. -/
theorem succList_sum_close (vals : List ℤ) (p : List ℤ × PathStep) (hp : p ∈ succList vals) :
    |p.1.sum - vals.sum| ≤ 2 := by
  rcases succList_mem_cases vals p hp with ⟨i, hi, he⟩ | ⟨i, hi, he⟩ |
    ⟨i, j, hij, hj, he⟩ | ⟨i, j, k, hij, hjk, hk, he⟩
  · rw [he]; exact splitTwoVals_sum vals i hi
  · rw [he]; exact splitThreeVals_sum vals i hi
  · rw [he, combineTwoVals_sum vals i j hij hj]; simp
  · rw [he, combineThreeVals_sum vals i j k hij hjk hk]; simp

/-- States reachable from `root` by exactly `k` operations of the generator. -/
inductive ReachIn (root : List ℤ) : ℕ → List ℤ → Prop where
  | refl : ReachIn root 0 root
  | step {k : ℕ} {s s' : List ℤ} {st : PathStep} :
      ReachIn root k s → (s', st) ∈ succList s → ReachIn root (k + 1) s'

/-- The scaled sum of a state reachable in `k` operations differs from the
root's scaled sum by at most `2 * k` units. -/
theorem reach_sum_close (root : List ℤ) (k : ℕ) (s : List ℤ) (h : ReachIn root k s) :
    |s.sum - root.sum| ≤ 2 * k := by
  induction h with
  | refl => simp
  | step hr hmem ih =>
    rename_i k' s' s'' st
    have h1 := succList_sum_close s' (s'', st) hmem
    have h2 := abs_le.mp h1
    have h3 := abs_le.mp ih
    rw [abs_le]
    push_cast
    push_cast at h3
    constructor <;> linarith [h2.1, h2.2, h3.1, h3.2]

/-! ### Inversion and invariants of the search loop -/

theorem searchStep_found_inv (tgt mgn : ℤ) (c : Cfg) (a : List ℚ × List ℚ × List PathStep)
    (h : searchStep tgt mgn c = StepRes.found a) :
    ∃ cur rest fr, heapPop c.queue = some (cur, rest) ∧
      find_final_and_remainder cur.values tgt mgn = some fr ∧
      a = (fr.1.map unscale, fr.2.map unscale, cur.path) := by
  unfold searchStep at h
  cases hpop : heapPop c.queue with
  | none => rw [hpop] at h; exact StepRes.noConfusion h
  | some pr =>
    obtain ⟨cur, rest⟩ := pr
    simp only [hpop] at h
    cases hff : find_final_and_remainder cur.values tgt mgn with
    | none =>
      simp only [hff] at h
      by_cases hd : MAX_DEPTH ≤ cur.depth
      · rw [if_pos hd] at h; exact StepRes.noConfusion h
      · rw [if_neg hd] at h; exact StepRes.noConfusion h
    | some fr =>
      simp only [hff] at h
      exact ⟨cur, rest, fr, rfl, hff, (StepRes.found.inj h).symm⟩

theorem searchStep_next_inv (tgt mgn : ℤ) (c c' : Cfg)
    (h : searchStep tgt mgn c = StepRes.next c') :
    ∃ cur rest, heapPop c.queue = some (cur, rest) ∧
      find_final_and_remainder cur.values tgt mgn = none ∧
      ((MAX_DEPTH ≤ cur.depth ∧ c' = ⟨rest, c.visited⟩) ∨
       (¬ MAX_DEPTH ≤ cur.depth ∧ c' = expand tgt cur ⟨rest, c.visited⟩)) := by
  unfold searchStep at h
  cases hpop : heapPop c.queue with
  | none => rw [hpop] at h; exact StepRes.noConfusion h
  | some pr =>
    obtain ⟨cur, rest⟩ := pr
    simp only [hpop] at h
    cases hff : find_final_and_remainder cur.values tgt mgn with
    | none =>
      simp only [hff] at h
      by_cases hd : MAX_DEPTH ≤ cur.depth
      · rw [if_pos hd] at h
        exact ⟨cur, rest, rfl, hff, Or.inl ⟨hd, (StepRes.next.inj h).symm⟩⟩
      · rw [if_neg hd] at h
        exact ⟨cur, rest, rfl, hff, Or.inr ⟨hd, (StepRes.next.inj h).symm⟩⟩
    | some fr =>
      simp only [hff] at h
      exact StepRes.noConfusion h

theorem searchStep_exhausted_inv (tgt mgn : ℤ) (c : Cfg)
    (h : searchStep tgt mgn c = StepRes.exhausted) : c.queue = [] := by
  unfold searchStep at h
  cases hpop : heapPop c.queue with
  | none => exact (heapPop_eq_none_iff c.queue).mp hpop
  | some pr =>
    obtain ⟨cur, rest⟩ := pr
    simp only [hpop] at h
    cases hff : find_final_and_remainder cur.values tgt mgn with
    | none =>
      simp only [hff] at h
      by_cases hd : MAX_DEPTH ≤ cur.depth
      · rw [if_pos hd] at h; exact StepRes.noConfusion h
      · rw [if_neg hd] at h; exact StepRes.noConfusion h
    | some fr =>
      simp only [hff] at h
      exact StepRes.noConfusion h

/-- SUCCESS answers always come from a successful terminal test: the returned
final and remainder lists are the unscaled partition of some state. -/
theorem searchLoop_found_from_find (tgt mgn : ℤ) (fuel : ℕ) :
    ∀ (c : Cfg) (F R : List ℚ) (pth : List PathStep),
      searchLoop tgt mgn fuel c = some (some (F, R, pth)) →
      ∃ vals f r, find_final_and_remainder vals tgt mgn = some (f, r) ∧
        F = f.map unscale ∧ R = r.map unscale := by
  induction fuel with
  | zero => intro c F R pth h; exact Option.noConfusion h
  | succ f ih =>
    intro c F R pth h
    rw [searchLoop] at h
    cases hstep : searchStep tgt mgn c with
    | found a =>
      rw [hstep] at h
      obtain ⟨cur, rest, fr, _, hff, ha⟩ := searchStep_found_inv tgt mgn c a hstep
      have haa : a = (F, R, pth) := by
        have := Option.some_inj.mp h
        exact Option.some_inj.mp this
      rw [haa] at ha
      refine ⟨cur.values, fr.1, fr.2, hff, ?_, ?_⟩
      · exact congrArg (fun q => q.1) ha
      · exact congrArg (fun q => q.2.1) ha
    | exhausted =>
      rw [hstep] at h
      have := Option.some_inj.mp h
      exact Option.noConfusion this
    | next c' =>
      rw [hstep] at h
      exact ih c' F R pth h

/-- The invariant carried by every frontier node: its path length equals its
depth, and its depth never exceeds the horizon. -/
def NodeOK (node : Node) : Prop := node.path.length = node.depth ∧ node.depth ≤ MAX_DEPTH

theorem pushIfBetter_queue_mem (tgt : ℤ) (c : Cfg) (nv : List ℤ) (np : List PathStep)
    (nd : ℕ) (node : Node) (hmem : node ∈ (pushIfBetter tgt c nv np nd).queue) :
    node ∈ c.queue ∨ node = ⟨nv, np, nd, calculate_heuristic nv tgt⟩ := by
  unfold pushIfBetter at hmem
  by_cases hs : shouldPush c.visited nv nd
  · rw [if_pos hs] at hmem
    have hp := (heapPush_perm c.queue _).mem_iff.mp hmem
    rcases List.mem_cons.mp hp with he | hm
    · exact Or.inr he
    · exact Or.inl hm
  · rw [if_neg hs] at hmem
    exact Or.inl hmem

theorem foldl_push_mem (tgt : ℤ) (cur : Node) (L : List (List ℤ × PathStep)) :
    ∀ (c : Cfg) (node : Node),
      node ∈ (L.foldl
        (fun c' sp => pushIfBetter tgt c' sp.1 (cur.path ++ [sp.2]) (cur.depth + 1)) c).queue →
      node ∈ c.queue ∨ ∃ sp ∈ L,
        node = ⟨sp.1, cur.path ++ [sp.2], cur.depth + 1, calculate_heuristic sp.1 tgt⟩ := by
  induction L with
  | nil => intro c node h; exact Or.inl h
  | cons sp rest ih =>
    intro c node h
    rw [List.foldl_cons] at h
    rcases ih _ node h with hc | ⟨sp', hsp', he⟩
    · rcases pushIfBetter_queue_mem tgt c sp.1 (cur.path ++ [sp.2]) (cur.depth + 1) node hc
        with h1 | h2
      · exact Or.inl h1
      · exact Or.inr ⟨sp, List.mem_cons_self sp rest, h2⟩
    · exact Or.inr ⟨sp', List.mem_cons_of_mem sp hsp', he⟩

theorem expand_queue_mem (tgt : ℤ) (cur : Node) (c : Cfg) (node : Node)
    (hmem : node ∈ (expand tgt cur c).queue) :
    node ∈ c.queue ∨ ∃ sp ∈ succList cur.values,
      node = ⟨sp.1, cur.path ++ [sp.2], cur.depth + 1, calculate_heuristic sp.1 tgt⟩ := by
  unfold expand at hmem
  exact foldl_push_mem tgt cur (succList cur.values) c node hmem

/-- One non-terminal loop iteration preserves `NodeOK` for the whole frontier. -/
theorem stepNext_preserves_NodeOK (tgt mgn : ℤ) (c c' : Cfg)
    (h : searchStep tgt mgn c = StepRes.next c')
    (hinv : ∀ node ∈ c.queue, NodeOK node) :
    ∀ node ∈ c'.queue, NodeOK node := by
  obtain ⟨cur, rest, hpop, hff, hbr⟩ := searchStep_next_inv tgt mgn c c' h
  have hqperm := heapPop_perm c.queue cur rest hpop
  have hrest : ∀ node ∈ rest, NodeOK node := by
    intro node hn
    exact hinv node (hqperm.mem_iff.mpr (List.mem_cons_of_mem cur hn))
  have hcur : NodeOK cur := hinv cur (hqperm.mem_iff.mpr (List.mem_cons_self cur rest))
  rcases hbr with ⟨hd, he⟩ | ⟨hd, he⟩
  · rw [he]
    intro node hn
    exact hrest node hn
  · rw [he]
    intro node hn
    rcases expand_queue_mem tgt cur ⟨rest, c.visited⟩ node hn with h1 | ⟨sp, _, he2⟩
    · exact hrest node h1
    · rw [he2]
      constructor
    
      · simp [hcur.1]
      · simp only []
        omega

/-- On SUCCESS the returned path comes from a node of the frontier, so its
length is bounded by the depth horizon. -/
theorem searchLoop_path_le (tgt mgn : ℤ) (fuel : ℕ) :
    ∀ (c : Cfg), (∀ node ∈ c.queue, NodeOK node) →
      ∀ F R pth, searchLoop tgt mgn fuel c = some (some (F, R, pth)) →
        pth.length ≤ MAX_DEPTH := by
  induction fuel with
  | zero => intro c _ F R pth h; exact Option.noConfusion h
  | succ f ih =>
    intro c hinv F R pth h
    rw [searchLoop] at h
    cases hstep : searchStep tgt mgn c with
    | found a =>
      rw [hstep] at h
      obtain ⟨cur, rest, fr, hpop, hff, ha⟩ := searchStep_found_inv tgt mgn c a hstep
      have haa : a = (F, R, pth) := Option.some_inj.mp (Option.some_inj.mp h)
      rw [haa] at ha
      have hqperm := heapPop_perm c.queue cur rest hpop
      have hcur : NodeOK cur := hinv cur (hqperm.mem_iff.mpr (List.mem_cons_self cur rest))
      have hpth : pth = cur.path := congrArg (fun q => q.2.2) ha
      rw [hpth, hcur.1]
      exact hcur.2
    | exhausted =>
      rw [hstep] at h
      exact Option.noConfusion (Option.some_inj.mp h)
    | next c' =>
      rw [hstep] at h
      exact ih c' (stepNext_preserves_NodeOK tgt mgn c c' hstep hinv) F R pth h

theorem initialCfg_queue_NodeOK (inputs : List ℚ) (tgt : ℤ) :
    ∀ node ∈ (initialCfg inputs tgt).queue, NodeOK node := by
  intro node hn
  unfold initialCfg at hn
  have hp := (heapPush_perm [] _).mem_iff.mp hn
  rcases List.mem_cons.mp hp with he | hm
  · rw [he]
    exact ⟨rfl, by norm_num [MAX_DEPTH]⟩
  · exact absurd hm (List.not_mem_nil node)

/-! ### Auxiliary bounds for the unscaled statements -/

theorem truncQ_le_of_nonneg (q : ℚ) (h : 0 ≤ q) : (truncQ q : ℚ) ≤ q := by
  rw [truncQ_nonneg_of q h]
  exact Int.floor_le q

theorem lt_truncQ_add_one_of_nonneg (q : ℚ) (h : 0 ≤ q) : q - 1 < (truncQ q : ℚ) := by
  rw [truncQ_nonneg_of q h]
  linarith [Int.lt_floor_add_one q]

theorem map_unscale_sum (l : List ℤ) : (l.map unscale).sum = (l.sum : ℚ) / SCALE := by
  induction l with
  | nil => simp
  | cons v t ih =>
    simp only [List.map_cons, List.sum_cons, ih, unscale]
    push_cast
    ring

theorem unscale_scale_close (q : ℚ) : |unscale (scale_value q) - q| < 1 / 1000 := by
  have h := abs_truncQ_sub_lt (q * SCALE)
  rw [scale_value, unscale, SCALE] at *
  rw [abs_lt] at h ⊢
  constructor <;> [linarith [h.1]; linarith [h.2]]

theorem map_scale_unscale_sum_close (inputs : List ℚ) :
    |((inputs.map scale_value).map unscale).sum - inputs.sum| ≤ (inputs.length : ℚ) / 1000 := by
  induction inputs with
  | nil => simp
  | cons q t ih =>
    simp only [List.map_cons, List.sum_cons, List.length_cons]
    have h1 := unscale_scale_close q
    have h2 : |unscale (scale_value q) + ((t.map scale_value).map unscale).sum - (q + t.sum)| ≤
        |unscale (scale_value q) - q| + |((t.map scale_value).map unscale).sum - t.sum| := by
      have := abs_add (unscale (scale_value q) - q) (((t.map scale_value).map unscale).sum - t.sum)
      calc |unscale (scale_value q) + ((t.map scale_value).map unscale).sum - (q + t.sum)|
          = |(unscale (scale_value q) - q) + (((t.map scale_value).map unscale).sum - t.sum)| := by
            ring_nf
        _ ≤ _ := this
    have h3 : ((t.length + 1 : ℕ) : ℚ) = (t.length : ℚ) + 1 := by push_cast; ring
    rw [h3]
    calc |unscale (scale_value q) + ((t.map scale_value).map unscale).sum - (q + t.sum)|
        ≤ |unscale (scale_value q) - q| + |((t.map scale_value).map unscale).sum - t.sum| := h2
      _ ≤ 1 / 1000 + (t.length : ℚ) / 1000 := by linarith [h1, ih]
      _ = ((t.length : ℚ) + 1) / 1000 := by ring

/-! ### C10: the terminal test is a stable partition returning Some iff non-empty -/

/-- C10 (confirmed).  `find_final_and_remainder` performs a stable partition:
the final and remainder lists are the order-preserving filters of the input by
the margin test, their concatenation is a permutation of the input (same
multiset), and the result is `some` exactly when the final list is non-empty
(`none` exactly when it is empty). -/
theorem find_final_stable_partition (values : List ℤ) (t m : ℤ) :
    (partitionVals values t m).1 = values.filter (fun v => decide (|v - t| ≤ m)) ∧
    (partitionVals values t m).2 = values.filter (fun v => !decide (|v - t| ≤ m)) ∧
    ((partitionVals values t m).1 ++ (partitionVals values t m).2).Perm values ∧
    (find_final_and_remainder values t m = some (partitionVals values t m) ↔
      (partitionVals values t m).1 ≠ []) ∧
    (find_final_and_remainder values t m = none ↔ (partitionVals values t m).1 = []) := by
  refine ⟨by rw [partitionVals_eq_filter], by rw [partitionVals_eq_filter],
    partitionVals_perm values t m, ?_, ?_⟩
  · unfold find_final_and_remainder
    by_cases h : (partitionVals values t m).1.isEmpty
    · rw [if_pos h]
      rw [List.isEmpty_iff] at h
      simp [h]
    · rw [if_neg h]
      rw [List.isEmpty_eq_true] at h
      simp [h]
  · unfold find_final_and_remainder
    by_cases h : (partitionVals values t m).1.isEmpty
    · rw [if_pos h]
      rw [List.isEmpty_iff] at h
      simp [h]
    · rw [if_neg h]
      rw [List.isEmpty_eq_true] at h
      simp [h]

/-! ### C7: conservation of the sum, up to truncation error -/

/-- C7 counterexample.  As stated, the claim forces the unscaled sum of the
state reachable by `k = 0` operations (the root) to equal the original input
sum exactly (any constant times `k` times the unit is `0`).  For the input
`[1/2000]` (i.e. `0.0005`) the root state is `[0]`, whose unscaled sum `0`
differs from the input sum `1/2000`: the initial scaling already truncates. -/
theorem sum_conservation_cex :
    ReachIn ([(1 : ℚ)/2000].map scale_value) 0 ([(1 : ℚ)/2000].map scale_value) ∧
    [(1 : ℚ)/2000].map scale_value = [0] ∧
    ¬ |((([(1 : ℚ)/2000].map scale_value).map unscale).sum - ([(1 : ℚ)/2000]).sum)| ≤ 0 :=
  ⟨ReachIn.refl, by decide, by decide⟩

/-- C7 (corrected).  Splits and combines are sum-preserving up to truncation:
one operation changes the scaled sum by at most `2` units, a state reachable by
`k` operations has scaled sum within `2 * k` units of the scaled root — so its
unscaled sum is within `2 * k / 1000` of the unscaled root sum — and the
unscaled root sum itself differs from the original input sum by at most one
truncation unit (`1/1000`) per input value. -/
theorem sum_conservation_bounded :
    (∀ (vals : List ℤ) (p : List ℤ × PathStep), p ∈ succList vals →
      |p.1.sum - vals.sum| ≤ 2) ∧
    (∀ (root : List ℤ) (k : ℕ) (s : List ℤ), ReachIn root k s →
      |s.sum - root.sum| ≤ 2 * k ∧
      |(s.map unscale).sum - (root.map unscale).sum| ≤ (2 * k : ℚ) / 1000) ∧
    (∀ inputs : List ℚ,
      |((inputs.map scale_value).map unscale).sum - inputs.sum| ≤ (inputs.length : ℚ) / 1000) := by
  refine ⟨succList_sum_close, ?_, map_scale_unscale_sum_close⟩
  intro root k s h
  have h1 := reach_sum_close root k s h
  refine ⟨h1, ?_⟩
  rw [map_unscale_sum, map_unscale_sum, SCALE, div_sub_div_same, abs_div]
  rw [show |(1000 : ℚ)| = 1000 by norm_num]
  rw [div_le_div_iff₀ (by norm_num) (by norm_num)]
  have h2 : (|s.sum - root.sum| : ℚ) ≤ ((2 * k : ℤ) : ℚ) := by exact_mod_cast h1
  push_cast at h2 ⊢
  nlinarith [h2]

/-- Witness for C7: the root `[5000]` (input `5.0`) reaches `[2500, 2500]` by one
split-in-two, and the bounds evaluate there. -/
theorem sum_conservation_bounded_witness :
    |([2500, 2500] : List ℤ).sum - ([5000] : List ℤ).sum| ≤ 2 * (1 : ℕ) := by
  have hmem : ((splitTwoVals [5000] 0, splitTwoStep [5000] 0) :
      List ℤ × PathStep) ∈ succList [5000] := by decide
  have hreach : ReachIn [5000] 1 (splitTwoVals [5000] 0) :=
    ReachIn.step ReachIn.refl hmem
  have h := (sum_conservation_bounded.2.1 [5000] 1 (splitTwoVals [5000] 0) hreach).1
  have he : splitTwoVals [5000] 0 = [2500, 2500] := by decide
  rw [he] at h
  exact h

/-! ### C4: the returned path respects the depth horizon -/

/-- C4 (confirmed).  Every SUCCESS answer of `shortest_path_to_target` carries a
path of length at most `MAX_DEPTH = 6`: nodes at the horizon are popped but
never expanded, so every frontier node keeps depth ≤ 6 and path length equal to
its depth. -/
theorem returned_path_length_le_max_depth (fuel : ℕ) (inputs : List ℚ)
    (target margin : ℚ) (F R : List ℚ) (pth : List PathStep)
    (h : shortest_path_to_target fuel inputs target margin = some (some (F, R, pth))) :
    pth.length ≤ MAX_DEPTH := by
  unfold shortest_path_to_target at h
  exact searchLoop_path_le (scale_value target) (scale_value margin) fuel
    (initialCfg inputs (scale_value target))
    (initialCfg_queue_NodeOK inputs (scale_value target)) F R pth h

/-- Witness for C4 at the immediate-success run on `[5.0, 5.0]`. -/
theorem returned_path_length_witness : ([] : List PathStep).length ≤ MAX_DEPTH :=
  returned_path_length_le_max_depth 1 [5, 5] 5 (1/100) [5, 5] [] [] (by decide)

/-! ### C1: partition correctness relative to the margin -/

theorem unscale_within (z : ℤ) (target margin : ℚ) (hm : 0 ≤ margin)
    (hb : |z - scale_value target| ≤ scale_value margin) :
    |unscale z - target| < margin + 1/1000 := by
  have hbq : |(z : ℚ) - (scale_value target : ℚ)| ≤ (scale_value margin : ℚ) := by
    exact_mod_cast hb
  have hT : |(scale_value target : ℚ) - target * 1000| < 1 := by
    have h := abs_truncQ_sub_lt (target * SCALE)
    rw [scale_value]
    rw [SCALE] at h ⊢
    exact h
  have hM : (scale_value margin : ℚ) ≤ margin * 1000 := by
    have h := truncQ_le_of_nonneg (margin * SCALE) (by rw [SCALE]; positivity)
    rw [scale_value]
    rw [SCALE] at h ⊢
    exact h
  rw [unscale, SCALE]
  have h1 := abs_le.mp hbq
  have h2 := abs_lt.mp hT
  rw [abs_lt]
  constructor <;> [linarith [h1.1, h2.2]; linarith [h1.2, h2.1]]

theorem unscale_outside (z : ℤ) (target margin : ℚ) (hm : 0 ≤ margin)
    (hb : ¬ |z - scale_value target| ≤ scale_value margin) :
    margin - 1/1000 < |unscale z - target| := by
  push_neg at hb
  have hb1 : scale_value margin + 1 ≤ |z - scale_value target| := hb
  have hbq : (scale_value margin : ℚ) + 1 ≤ |(z : ℚ) - (scale_value target : ℚ)| := by
    exact_mod_cast hb1
  have hT : |(scale_value target : ℚ) - target * 1000| < 1 := by
    have h := abs_truncQ_sub_lt (target * SCALE)
    rw [scale_value]
    rw [SCALE] at h ⊢
    exact h
  have hM : margin * 1000 - 1 < (scale_value margin : ℚ) := by
    have h := lt_truncQ_add_one_of_nonneg (margin * SCALE) (by rw [SCALE]; positivity)
    rw [scale_value]
    rw [SCALE] at h ⊢
    exact h
  rw [unscale, SCALE]
  have h2 := abs_lt.mp hT
  rcases le_abs.mp hbq with hc | hc
  · have h3 : margin - 1/1000 < (z : ℚ) / 1000 - target := by linarith [h2.1, h2.2]
    exact lt_of_lt_of_le h3 (le_abs_self _)
  · have h3 : margin - 1/1000 < -((z : ℚ) / 1000 - target) := by linarith [h2.1, h2.2]
    exact lt_of_lt_of_le h3 (neg_le_abs _)

/-- C1 counterexample.  For `solve([5.0, 5.002], 5.0009, 0.0015)` the run
succeeds immediately with `final = [5.0]`, `remainder = [5.002]`, but the
remainder value `5.002` satisfies `|5.002 - 5.0009| = 0.0011 ≤ 0.0015`: the
unscaled remainder inequality `|v - target| > margin` claimed by the
specification fails, because the comparison is made on truncated scaled
integers (`|5002 - 5000| = 2 > 1 = scaled margin`). -/
theorem final_partition_unscaled_margin_cex :
    shortest_path_to_target 1 [5, 2501/500] (50009/10000) (3/2000)
      = some (some ([5], [2501/500], [])) ∧
    |(2501 : ℚ)/500 - 50009/10000| ≤ 3/2000 :=
  ⟨by decide, by decide⟩

/-- C1 (corrected).  On SUCCESS every returned final value is the unscaling of
an integer within the **scaled** margin of the **scaled** target, and every
remainder value violates that scaled inequality; in unscaled terms the final
values satisfy `|v - target| < margin + 1/1000` and the remainder values
satisfy `|v - target| > margin - 1/1000` (for non-negative margins), the
slack being one fixed-point truncation unit. -/
theorem final_partition_scaled_margin (fuel : ℕ) (inputs : List ℚ) (target margin : ℚ)
    (F R : List ℚ) (pth : List PathStep)
    (h : shortest_path_to_target fuel inputs target margin = some (some (F, R, pth))) :
    (∀ v ∈ F, ∃ z : ℤ, v = unscale z ∧ |z - scale_value target| ≤ scale_value margin) ∧
    (∀ v ∈ R, ∃ z : ℤ, v = unscale z ∧ ¬ |z - scale_value target| ≤ scale_value margin) ∧
    (0 ≤ margin → ∀ v ∈ F, |v - target| < margin + 1/1000) ∧
    (0 ≤ margin → ∀ v ∈ R, margin - 1/1000 < |v - target|) := by
  unfold shortest_path_to_target at h
  obtain ⟨vals, f, r, hff, hF, hR⟩ :=
    searchLoop_found_from_find (scale_value target) (scale_value margin) fuel _ F R pth h
  obtain ⟨_, _, hfm, hrm, _, _⟩ := find_final_some_spec vals _ _ f r hff
  refine ⟨?_, ?_, ?_, ?_⟩
  · intro v hv
    rw [hF] at hv
    obtain ⟨z, hz, he⟩ := List.mem_map.mp hv
    exact ⟨z, he.symm, hfm z hz⟩
  · intro v hv
    rw [hR] at hv
    obtain ⟨z, hz, he⟩ := List.mem_map.mp hv
    exact ⟨z, he.symm, hrm z hz⟩
  · intro hm v hv
    rw [hF] at hv
    obtain ⟨z, hz, he⟩ := List.mem_map.mp hv
    rw [← he]
    exact unscale_within z target margin hm (hfm z hz)
  · intro hm v hv
    rw [hR] at hv
    obtain ⟨z, hz, he⟩ := List.mem_map.mp hv
    rw [← he]
    exact unscale_outside z target margin hm (hrm z hz)

/-- Witness for C1 at the immediate-success run on `[5.0, 5.0]`. -/
theorem final_partition_scaled_margin_witness :
    |(5 : ℚ) - 5| < 1/100 + 1/1000 :=
  (final_partition_scaled_margin 1 [5, 5] 5 (1/100) [5, 5] [] [] (by decide)).2.2.1
    (by norm_num) 5 (by simp)

/-! ### C2: the concrete scenario on inputs 5.0, 5.0 -/

/-- C2 counterexample.  `solve([5.0, 5.0], 5.0, 0.01)` does succeed at once with
an empty path, but both input values are within margin of the target, so the
final list is `[5.0, 5.0]` and the remainder is empty — not `final = [5.0]`,
`remainder = [5.0]` as the specification's scenario says. -/
theorem scenario_five_five_cex :
    shortest_path_to_target 1 [5, 5] 5 (1/100) = some (some ([5, 5], [], [])) ∧
    ([5, 5] : List ℚ) ≠ [5] :=
  ⟨by decide, by decide⟩

/-- C2 (corrected).  The call succeeds immediately (fuel 1, the very first
popped node), the path is empty (depth 0), and the partition is
`final = [5.0, 5.0]`, `remainder = []`. -/
theorem scenario_five_five_result :
    shortest_path_to_target 1 [5, 5] 5 (1/100) = some (some ([5, 5], [], [])) := by
  decide

/-! ### C6: tie handling of the frontier -/

/-- Pop every element of a frontier in order (fuel-bounded observation helper). -/
def popAll : ℕ → List Node → List Node
  | 0, _ => []
  | fuel + 1, data =>
    match heapPop data with
    | none => []
    | some pr => pr.1 :: popAll fuel pr.2

/-- C6 counterexample.  Push four nodes of equal priority (estimated cost 0) in
the order `[1]`, `[2]`, `[3]`, `[4]`: the frontier pops them in the order
`[1]`, `[3]`, `[2]`, `[4]`.  After the first pop the earliest-pushed node of
minimal priority is `[2]`, yet `[3]` is popped next: the binary heap of the
source does not break ties by insertion order. -/
theorem tie_pop_insertion_order_cex :
    popAll 4 (heapPush (heapPush (heapPush (heapPush []
        ⟨[1], [], 0, 0⟩) ⟨[2], [], 0, 0⟩) ⟨[3], [], 0, 0⟩) ⟨[4], [], 0, 0⟩) =
      [⟨[1], [], 0, 0⟩, ⟨[3], [], 0, 0⟩, ⟨[2], [], 0, 0⟩, ⟨[4], [], 0, 0⟩] ∧
    (⟨[3], [], 0, 0⟩ : Node) ≠ ⟨[2], [], 0, 0⟩ :=
  ⟨by decide, by decide⟩

theorem dropLast_getD_zero (data : List Node) (hne : ¬ data.dropLast.isEmpty) :
    data.dropLast.getD 0 default = data.getD 0 default := by
  cases data with
  | nil => simp at hne
  | cons a t =>
    cases t with
    | nil => simp at hne
    | cons b t2 => rfl

/-- C6 (corrected).  The frontier always pops the node stored at the root of the
binary-heap array; among equal-priority nodes the pop order is therefore
determined by the heap's array layout, not by insertion order — pushing four
equal-priority nodes in order 1, 2, 3, 4 pops them in order 1, 3, 2, 4. -/
theorem tie_pop_heap_order :
    (∀ (data : List Node) (n : Node) (rest : List Node),
      heapPop data = some (n, rest) → n = data.getD 0 default) ∧
    popAll 4 (heapPush (heapPush (heapPush (heapPush []
        ⟨[1], [], 0, 0⟩) ⟨[2], [], 0, 0⟩) ⟨[3], [], 0, 0⟩) ⟨[4], [], 0, 0⟩) =
      [⟨[1], [], 0, 0⟩, ⟨[3], [], 0, 0⟩, ⟨[2], [], 0, 0⟩, ⟨[4], [], 0, 0⟩] := by
  constructor
  · intro data n rest h
    unfold heapPop at h
    by_cases h0 : data.isEmpty
    · rw [if_pos h0] at h
      exact Option.noConfusion h
    · rw [if_neg h0] at h
      by_cases h1 : data.dropLast.isEmpty
      · rw [if_pos h1] at h
        have hpair := Option.some_inj.mp h
        have hn : n = data.getLastD default := (congrArg Prod.fst hpair).symm
        cases data with
        | nil => simp at h0
        | cons a t =>
          cases t with
          | nil => rw [hn]; rfl
          | cons b t2 => simp at h1
      · rw [if_neg h1] at h
        have hpair := Option.some_inj.mp h
        have hn : n = data.dropLast.getD 0 default := (congrArg Prod.fst hpair).symm
        rw [hn]
        exact dropLast_getD_zero data h1
  · decide

/-- Witness for C6: on a singleton frontier the popped node is the array root. -/
theorem tie_pop_heap_order_witness :
    (⟨[1], [], 0, 0⟩ : Node) = ([⟨[1], [], 0, 0⟩] : List Node).getD 0 default :=
  tie_pop_heap_order.1 [⟨[1], [], 0, 0⟩] ⟨[1], [], 0, 0⟩ [] (by decide)

/-! ### C8: the partial operations of the source never fault -/

/-- Checked model of the indexing `values[i]` (panics when out of bounds). -/
def getChecked (l : List ℤ) (i : ℕ) : Option ℤ :=
  if i < l.length then some (l.getD i 0) else none

/-- Checked model of `Vec::remove(i)` (panics when out of bounds). -/
def eraseChecked (l : List ℤ) (i : ℕ) : Option (List ℤ) :=
  if i < l.length then some (l.eraseIdx i) else none

/-- Checked model of the visited-table guard
`!visited.contains_key(&v) || visited[&v] > depth`: the map indexing panics if
the key is absent, but it is only evaluated after `contains_key` succeeds. -/
def shouldPushChecked (visited : List (List ℤ × ℕ)) (nv : List ℤ) (nd : ℕ) : Option Bool :=
  if (lookupA visited nv).isSome = false then some true
  else (lookupA visited nv).map (fun d0 => decide (nd < d0))

/-- Checked successor: split into two. -/
def splitTwoValsChecked (vals : List ℤ) (i : ℕ) : Option (List ℤ) := do
  let value ← getChecked vals i
  let base ← eraseChecked vals i
  let parts := split_into_two (unscale value)
  pure (base ++ [scale_value parts.1, scale_value parts.2])

/-- Checked successor: split into three. -/
def splitThreeValsChecked (vals : List ℤ) (i : ℕ) : Option (List ℤ) := do
  let value ← getChecked vals i
  let base ← eraseChecked vals i
  let parts := split_into_three (unscale value)
  pure (base ++ [scale_value parts.1, scale_value parts.2.1, scale_value parts.2.2])

/-- Checked successor: combine two (removals at `i` and then `j - 1`). -/
def combineTwoValsChecked (vals : List ℤ) (i j : ℕ) : Option (List ℤ) := do
  let a ← getChecked vals i
  let b ← getChecked vals j
  let e1 ← eraseChecked vals i
  let e2 ← eraseChecked e1 (j - 1)
  pure (e2 ++ [scale_value (combine_two (unscale a) (unscale b))])

/-- Checked successor: combine three (removals at `i`, `j - 1`, `k - 2`). -/
def combineThreeValsChecked (vals : List ℤ) (i j k : ℕ) : Option (List ℤ) := do
  let a ← getChecked vals i
  let b ← getChecked vals j
  let d ← getChecked vals k
  let e1 ← eraseChecked vals i
  let e2 ← eraseChecked e1 (j - 1)
  let e3 ← eraseChecked e2 (k - 2)
  pure (e3 ++ [scale_value (combine_three (unscale a) (unscale b) (unscale d))])

/-- Checked expansion of one index, in the source's order. -/
def childPairsAtChecked (vals : List ℤ) (i : ℕ) : Option (List (List ℤ × PathStep)) := do
  let s2 ← splitTwoValsChecked vals i
  let s3 ← splitThreeValsChecked vals i
  let c2 ← (List.range' (i + 1) (vals.length - (i + 1))).mapM
    (fun j => do
      let st ← combineTwoValsChecked vals i j
      pure ((st, combineTwoStep vals i j) : List ℤ × PathStep))
  let c3 ← (List.range' (i + 1) (vals.length - (i + 1))).mapM
    (fun j => (List.range' (j + 1) (vals.length - (j + 1))).mapM
      (fun k => do
        let st ← combineThreeValsChecked vals i j k
        pure ((st, combineThreeStep vals i j k) : List ℤ × PathStep)))
  pure ([(s2, splitTwoStep vals i), (s3, splitThreeStep vals i)] ++ c2 ++ c3.flatten)

/-- Checked successor generation over all indices. -/
def succListChecked (vals : List ℤ) : Option (List (List ℤ × PathStep)) := do
  let parts ← (List.range vals.length).mapM (childPairsAtChecked vals)
  pure parts.flatten

theorem mapM_eq_map {α β : Type} (f : α → Option β) (g : α → β) (L : List α)
    (h : ∀ x ∈ L, f x = some (g x)) : L.mapM f = some (L.map g) := by
  induction L with
  | nil => rfl
  | cons a t ih =>
    rw [List.mapM_cons, h a (List.mem_cons_self a t), ih (fun x hx => h x (List.mem_cons_of_mem a hx))]
    rfl

theorem splitTwoValsChecked_eq (vals : List ℤ) (i : ℕ) (hi : i < vals.length) :
    splitTwoValsChecked vals i = some (splitTwoVals vals i) := by
  unfold splitTwoValsChecked getChecked eraseChecked
  rw [if_pos hi, if_pos hi]
  rfl

theorem splitThreeValsChecked_eq (vals : List ℤ) (i : ℕ) (hi : i < vals.length) :
    splitThreeValsChecked vals i = some (splitThreeVals vals i) := by
  unfold splitThreeValsChecked getChecked eraseChecked
  rw [if_pos hi, if_pos hi]
  rfl

theorem combineTwoValsChecked_eq (vals : List ℤ) (i j : ℕ) (hij : i < j)
    (hj : j < vals.length) :
    combineTwoValsChecked vals i j = some (combineTwoVals vals i j) := by
  have hi : i < vals.length := lt_trans hij hj
  have hl : (vals.eraseIdx i).length = vals.length - 1 := length_eraseIdx_lt vals i hi
  have hj1 : j - 1 < (vals.eraseIdx i).length := by omega
  simp [combineTwoValsChecked, getChecked, eraseChecked, hi, hj, hj1, combineTwoVals]

theorem combineThreeValsChecked_eq (vals : List ℤ) (i j k : ℕ) (hij : i < j)
    (hjk : j < k) (hk : k < vals.length) :
    combineThreeValsChecked vals i j k = some (combineThreeVals vals i j k) := by
  have hj : j < vals.length := lt_trans hjk hk
  have hi : i < vals.length := lt_trans hij hj
  have hl : (vals.eraseIdx i).length = vals.length - 1 := length_eraseIdx_lt vals i hi
  have hj1 : j - 1 < (vals.eraseIdx i).length := by omega
  have hl2 : ((vals.eraseIdx i).eraseIdx (j - 1)).length = vals.length - 2 := by
    rw [length_eraseIdx_lt _ (j - 1) hj1, hl]
    omega
  have hk2 : k - 2 < ((vals.eraseIdx i).eraseIdx (j - 1)).length := by omega
  simp [combineThreeValsChecked, getChecked, eraseChecked, hi, hj, hk, hj1, hk2,
    combineThreeVals]

theorem childPairsAtChecked_eq (vals : List ℤ) (i : ℕ) (hi : i < vals.length) :
    childPairsAtChecked vals i = some (childPairsAt vals i) := by
  have hc2 : (List.range' (i + 1) (vals.length - (i + 1))).mapM
      (fun j => do
        let st ← combineTwoValsChecked vals i j
        pure ((st, combineTwoStep vals i j) : List ℤ × PathStep)) =
      some ((List.range' (i + 1) (vals.length - (i + 1))).map
        (fun j => (combineTwoVals vals i j, combineTwoStep vals i j))) := by
    apply mapM_eq_map
    intro j hj
    rw [List.mem_range'] at hj
    obtain ⟨o, ho, hjo⟩ := hj
    rw [combineTwoValsChecked_eq vals i j (by omega) (by omega)]
    rfl
  have hc3 : (List.range' (i + 1) (vals.length - (i + 1))).mapM
      (fun j => (List.range' (j + 1) (vals.length - (j + 1))).mapM
        (fun k => do
          let st ← combineThreeValsChecked vals i j k
          pure ((st, combineThreeStep vals i j k) : List ℤ × PathStep))) =
      some ((List.range' (i + 1) (vals.length - (i + 1))).map
        (fun j => (List.range' (j + 1) (vals.length - (j + 1))).map
          (fun k => (combineThreeVals vals i j k, combineThreeStep vals i j k)))) := by
    apply mapM_eq_map
    intro j hj
    rw [List.mem_range'] at hj
    obtain ⟨o, ho, hjo⟩ := hj
    apply mapM_eq_map
    intro k hk
    rw [List.mem_range'] at hk
    obtain ⟨o2, ho2, hko2⟩ := hk
    rw [combineThreeValsChecked_eq vals i j k (by omega) (by omega) (by omega)]
    rfl
  unfold childPairsAtChecked
  rw [splitTwoValsChecked_eq vals i hi, splitThreeValsChecked_eq vals i hi, hc2, hc3]
  show some _ = some (childPairsAt vals i)
  unfold childPairsAt
  rw [List.flatMap_def]

theorem succListChecked_eq (vals : List ℤ) :
    succListChecked vals = some (succList vals) := by
  unfold succListChecked
  rw [mapM_eq_map (childPairsAtChecked vals) (childPairsAt vals) (List.range vals.length)
    (fun i hi => childPairsAtChecked_eq vals i (List.mem_range.mp hi))]
  show some _ = some (succList vals)
  unfold succList
  rw [List.flatMap_def]

theorem shouldPushChecked_eq (visited : List (List ℤ × ℕ)) (nv : List ℤ) (nd : ℕ) :
    shouldPushChecked visited nv nd = some (shouldPush visited nv nd) := by
  unfold shouldPushChecked shouldPush
  cases h : lookupA visited nv with
  | none => rfl
  | some d0 => rfl

/-- Checked expansion: the successor generation and every visited-table guard
run in the panic-modelling monad. -/
def expandChecked (tgt : ℤ) (cur : Node) (c : Cfg) : Option Cfg := do
  let L ← succListChecked cur.values
  L.foldlM
    (fun c' sp => do
      let b ← shouldPushChecked c'.visited sp.1 (cur.depth + 1)
      pure (if b then
        (⟨heapPush c'.queue ⟨sp.1, cur.path ++ [sp.2], cur.depth + 1,
            calculate_heuristic sp.1 tgt⟩, insertA c'.visited sp.1 (cur.depth + 1)⟩ : Cfg)
      else c')) c

theorem foldlM_push_eq (tgt : ℤ) (cur : Node) (L : List (List ℤ × PathStep)) :
    ∀ c : Cfg,
      L.foldlM
        (fun c' sp => do
          let b ← shouldPushChecked c'.visited sp.1 (cur.depth + 1)
          pure (if b then
            (⟨heapPush c'.queue ⟨sp.1, cur.path ++ [sp.2], cur.depth + 1,
                calculate_heuristic sp.1 tgt⟩, insertA c'.visited sp.1 (cur.depth + 1)⟩ : Cfg)
          else c')) c =
      some (L.foldl
        (fun c' sp => pushIfBetter tgt c' sp.1 (cur.path ++ [sp.2]) (cur.depth + 1)) c) := by
  induction L with
  | nil => intro c; rfl
  | cons sp rest ih =>
    intro c
    rw [List.foldlM_cons, List.foldl_cons]
    rw [shouldPushChecked_eq c.visited sp.1 (cur.depth + 1)]
    show rest.foldlM _ (pushIfBetter tgt c sp.1 (cur.path ++ [sp.2]) (cur.depth + 1)) = _
    exact ih _

theorem expandChecked_eq (tgt : ℤ) (cur : Node) (c : Cfg) :
    expandChecked tgt cur c = some (expand tgt cur c) := by
  unfold expandChecked expand
  rw [succListChecked_eq]
  show (succList cur.values).foldlM _ c = _
  exact foldlM_push_eq tgt cur (succList cur.values) c

/-- One checked search iteration. -/
def searchStepChecked (tgt mgn : ℤ) (c : Cfg) : Option StepRes :=
  match heapPop c.queue with
  | none => some StepRes.exhausted
  | some (cur, rest) =>
    match find_final_and_remainder cur.values tgt mgn with
    | some fr => some (StepRes.found (fr.1.map unscale, fr.2.map unscale, cur.path))
    | none =>
      if MAX_DEPTH ≤ cur.depth then some (StepRes.next ⟨rest, c.visited⟩)
      else (expandChecked tgt cur ⟨rest, c.visited⟩).map StepRes.next

theorem searchStepChecked_eq (tgt mgn : ℤ) (c : Cfg) :
    searchStepChecked tgt mgn c = some (searchStep tgt mgn c) := by
  unfold searchStepChecked searchStep
  cases hpop : heapPop c.queue with
  | none => rfl
  | some pr =>
    obtain ⟨cur, rest⟩ := pr
    show (match find_final_and_remainder cur.values tgt mgn with
        | some fr =>
          some (StepRes.found (fr.1.map unscale, fr.2.map unscale, cur.path))
        | none =>
          if MAX_DEPTH ≤ cur.depth then some (StepRes.next ⟨rest, c.visited⟩)
          else (expandChecked tgt cur ⟨rest, c.visited⟩).map StepRes.next) =
      some (match find_final_and_remainder cur.values tgt mgn with
        | some fr => StepRes.found (fr.1.map unscale, fr.2.map unscale, cur.path)
        | none =>
          if MAX_DEPTH ≤ cur.depth then StepRes.next ⟨rest, c.visited⟩
          else StepRes.next (expand tgt cur ⟨rest, c.visited⟩))
    cases hff : find_final_and_remainder cur.values tgt mgn with
    | some fr => rfl
    | none =>
      show (if MAX_DEPTH ≤ cur.depth then _ else _) = some (if MAX_DEPTH ≤ cur.depth then _ else _)
      by_cases hd : MAX_DEPTH ≤ cur.depth
      · rw [if_pos hd, if_pos hd]
      · rw [if_neg hd, if_neg hd, expandChecked_eq]
        rfl

/-- The checked search loop: `none` would be a panic; it never happens. -/
def searchLoopChecked (tgt mgn : ℤ) :
    ℕ → Cfg → Option (Option (Option (List ℚ × List ℚ × List PathStep)))
  | 0, _ => some none
  | fuel + 1, c =>
    match searchStepChecked tgt mgn c with
    | none => none
    | some (StepRes.found a) => some (some (some a))
    | some StepRes.exhausted => some (some none)
    | some (StepRes.next c') => searchLoopChecked tgt mgn fuel c'

theorem searchLoopChecked_eq (tgt mgn : ℤ) (fuel : ℕ) :
    ∀ c, searchLoopChecked tgt mgn fuel c = some (searchLoop tgt mgn fuel c) := by
  induction fuel with
  | zero => intro c; rfl
  | succ f ih =>
    intro c
    rw [searchLoopChecked, searchLoop, searchStepChecked_eq]
    cases searchStep tgt mgn c with
    | found a => rfl
    | exhausted => rfl
    | next c' => exact ih c'

/-- C8 (confirmed).  The search never takes an exception path: modelling every
partial operation of the source (slice indexing `values[i]`, `Vec::remove`,
`HashMap` indexing after `contains_key`) in an explicit panic monad, the
successor generator, the visited-table guard and the whole search loop always
return a value — so `shortest_path_to_target` yields SUCCESS or absence, never
a panic.  (The divisions are by the non-zero constants 2, 3 and 1000 and are
total in the real domain; the heuristic is a total fold.) -/
theorem search_never_panics :
    (∀ vals : List ℤ, succListChecked vals = some (succList vals)) ∧
    (∀ (visited : List (List ℤ × ℕ)) (nv : List ℤ) (nd : ℕ),
      shouldPushChecked visited nv nd = some (shouldPush visited nv nd)) ∧
    (∀ (fuel : ℕ) (inputs : List ℚ) (target margin : ℚ),
      searchLoopChecked (scale_value target) (scale_value margin) fuel
          (initialCfg inputs (scale_value target)) =
        some (shortest_path_to_target fuel inputs target margin)) :=
  ⟨succListChecked_eq, shouldPushChecked_eq, fun fuel inputs target margin =>
    searchLoopChecked_eq (scale_value target) (scale_value margin) fuel
      (initialCfg inputs (scale_value target))⟩

/-! ### C5: the visited table records the smallest enqueued depth -/

theorem lookupA_filter_ne (m : List (List ℤ × ℕ)) (k kk : List ℤ) (h : kk ≠ k) :
    lookupA (m.filter (fun e => decide (e.1 ≠ k))) kk = lookupA m kk := by
  induction m with
  | nil => rfl
  | cons e t ih =>
    rw [List.filter_cons]
    by_cases he : e.1 = k
    · have hd : (decide (e.1 ≠ k)) = false := by simp [he]
      rw [hd]
      simp only [Bool.false_eq_true, if_false]
      rw [ih]
      have hne : e.1 ≠ kk := by rw [he]; exact fun hh => h hh.symm
      rw [lookupA, if_neg hne]
    · have hd : (decide (e.1 ≠ k)) = true := by simp [he]
      rw [hd]
      simp only [if_true]
      by_cases hk : e.1 = kk
      · rw [lookupA, if_pos hk, lookupA, if_pos hk]
      · rw [lookupA, if_neg hk, lookupA, if_neg hk, ih]

theorem lookupA_insertA_self (m : List (List ℤ × ℕ)) (k : List ℤ) (d : ℕ) :
    lookupA (insertA m k d) k = some d := by
  rw [insertA, lookupA, if_pos rfl]

theorem lookupA_insertA_ne (m : List (List ℤ × ℕ)) (k : List ℤ) (d : ℕ) (kk : List ℤ)
    (h : kk ≠ k) : lookupA (insertA m k d) kk = lookupA m kk := by
  rw [insertA, lookupA, if_neg (fun hh => h hh.symm)]
  exact lookupA_filter_ne m k kk h

/-- The iff of the push guard: a successor is pushed exactly when its state is
absent from the visited table or recorded at a strictly greater depth. -/
theorem shouldPush_iff (visited : List (List ℤ × ℕ)) (nv : List ℤ) (nd : ℕ) :
    shouldPush visited nv nd = true ↔
      (lookupA visited nv = none ∨ ∃ d0, lookupA visited nv = some d0 ∧ nd < d0) := by
  unfold shouldPush
  cases h : lookupA visited nv with
  | none => simp
  | some d0 =>
    simp only [decide_eq_true_eq]
    constructor
    · intro hlt; exact Or.inr ⟨d0, rfl, hlt⟩
    · intro hor
      rcases hor with hn | ⟨d1, he, hlt⟩
      · exact Option.noConfusion hn
      · have hde : d0 = d1 := Option.some_inj.mp he
        omega

/-- Instrumented configuration: the search configuration together with a ghost
log of every enqueue event `(state, depth)`, the root insert included.  The log
does not influence the computation; it only observes it. -/
structure CfgT where
  cfg : Cfg
  log : List (List ℤ × ℕ)

/-- Instrumented conditional push: same computation as `pushIfBetter`, also
appending the enqueue event to the ghost log when the push happens. -/
def pushIfBetterT (tgt : ℤ) (ct : CfgT) (nv : List ℤ) (np : List PathStep) (nd : ℕ) : CfgT :=
  if shouldPush ct.cfg.visited nv nd then
    ⟨⟨heapPush ct.cfg.queue ⟨nv, np, nd, calculate_heuristic nv tgt⟩,
      insertA ct.cfg.visited nv nd⟩, ct.log ++ [(nv, nd)]⟩
  else ct

/-- Instrumented expansion. -/
def expandT (tgt : ℤ) (cur : Node) (ct : CfgT) : CfgT :=
  (succList cur.values).foldl
    (fun ct' sp => pushIfBetterT tgt ct' sp.1 (cur.path ++ [sp.2]) (cur.depth + 1)) ct

/-- One instrumented iteration; `none` once the plain loop would stop
(SUCCESS or EXHAUSTED). -/
def searchStepT (tgt mgn : ℤ) (ct : CfgT) : Option CfgT :=
  match heapPop ct.cfg.queue with
  | none => none
  | some (cur, rest) =>
    match find_final_and_remainder cur.values tgt mgn with
    | some _ => none
    | none =>
      if MAX_DEPTH ≤ cur.depth then some ⟨⟨rest, ct.cfg.visited⟩, ct.log⟩
      else some (expandT tgt cur ⟨⟨rest, ct.cfg.visited⟩, ct.log⟩)

/-- Run `k` instrumented iterations. -/
def iterT (tgt mgn : ℤ) : ℕ → CfgT → Option CfgT
  | 0, ct => some ct
  | k + 1, ct =>
    match searchStepT tgt mgn ct with
    | none => none
    | some ct' => iterT tgt mgn k ct'

/-- The instrumented initial configuration: the root state is enqueued at depth 0. -/
def initialCfgT (inputs : List ℚ) (tgt : ℤ) : CfgT :=
  ⟨initialCfg inputs tgt, [(inputs.map scale_value, 0)]⟩

theorem pushIfBetterT_cfg (tgt : ℤ) (ct : CfgT) (nv : List ℤ) (np : List PathStep) (nd : ℕ) :
    (pushIfBetterT tgt ct nv np nd).cfg = pushIfBetter tgt ct.cfg nv np nd := by
  unfold pushIfBetterT pushIfBetter
  by_cases h : shouldPush ct.cfg.visited nv nd
  · rw [if_pos h, if_pos h]
  · rw [if_neg h, if_neg h]

theorem expandT_cfg (tgt : ℤ) (cur : Node) (ct : CfgT) :
    (expandT tgt cur ct).cfg = expand tgt cur ct.cfg := by
  unfold expandT expand
  generalize succList cur.values = L
  induction L generalizing ct with
  | nil => rfl
  | cons sp rest ih =>
    rw [List.foldl_cons, List.foldl_cons,
      ← pushIfBetterT_cfg tgt ct sp.1 (cur.path ++ [sp.2]) (cur.depth + 1)]
    exact ih _

/-- Faithfulness of the instrumentation: a successful instrumented step projects
to the plain step on configurations. -/
theorem searchStepT_proj (tgt mgn : ℤ) (ct ct' : CfgT)
    (h : searchStepT tgt mgn ct = some ct') :
    searchStep tgt mgn ct.cfg = StepRes.next ct'.cfg := by
  unfold searchStepT at h
  unfold searchStep
  cases hpop : heapPop ct.cfg.queue with
  | none => rw [hpop] at h; exact Option.noConfusion h
  | some pr =>
    obtain ⟨cur, rest⟩ := pr
    simp only [hpop] at h ⊢
    cases hff : find_final_and_remainder cur.values tgt mgn with
    | some fr => simp only [hff] at h; exact Option.noConfusion h
    | none =>
      simp only [hff] at h ⊢
      by_cases hd : MAX_DEPTH ≤ cur.depth
      · rw [if_pos hd] at h ⊢
        rw [← Option.some_inj.mp h]
      · rw [if_neg hd] at h ⊢
        rw [← Option.some_inj.mp h]
        rw [expandT_cfg]

/-- The depths at which a given state appears in the ghost log. -/
def logDepths (log : List (List ℤ × ℕ)) (s : List ℤ) : List ℕ :=
  (log.filter (fun e => decide (e.1 = s))).map (fun e => e.2)

theorem logDepths_append (log extra : List (List ℤ × ℕ)) (s : List ℤ) :
    logDepths (log ++ extra) s = logDepths log s ++ logDepths extra s := by
  unfold logDepths
  rw [List.filter_append, List.map_append]

theorem logDepths_single_self (s : List ℤ) (nd : ℕ) : logDepths [(s, nd)] s = [nd] := by
  simp [logDepths]

theorem logDepths_single_ne (s' s : List ℤ) (nd : ℕ) (h : s ≠ s') :
    logDepths [(s', nd)] s = [] := by
  have hne : ¬ s' = s := fun hh => h hh.symm
  simp [logDepths, hne]

/-- The ghost invariant: the visited table maps each recorded state to the
minimum of all depths at which that state has been enqueued so far, and states
absent from the table have never been enqueued. -/
def MinLog (ct : CfgT) : Prop :=
  ∀ s : List ℤ,
    (∀ d, lookupA ct.cfg.visited s = some d →
      d ∈ logDepths ct.log s ∧ ∀ d' ∈ logDepths ct.log s, d ≤ d') ∧
    (lookupA ct.cfg.visited s = none → logDepths ct.log s = [])

theorem initialCfgT_minlog (inputs : List ℚ) (tgt : ℤ) : MinLog (initialCfgT inputs tgt) := by
  intro s
  have hv : (initialCfgT inputs tgt).cfg.visited = [(inputs.map scale_value, 0)] := rfl
  have hl : (initialCfgT inputs tgt).log = [(inputs.map scale_value, 0)] := rfl
  rw [hv, hl]
  by_cases hs : s = inputs.map scale_value
  · subst hs
    constructor
    · intro d hd
      rw [lookupA, if_pos rfl] at hd
      have hd0 : d = 0 := (Option.some_inj.mp hd).symm
      subst hd0
      rw [logDepths_single_self]
      refine ⟨List.mem_cons_self 0 [], ?_⟩
      intro d' hd'
      have hd0' : d' = 0 := List.mem_singleton.mp hd'
      omega
    · intro hn
      rw [lookupA, if_pos rfl] at hn
      exact Option.noConfusion hn
  · have hne : inputs.map scale_value ≠ s := fun hh => hs hh.symm
    constructor
    · intro d hd
      rw [lookupA, if_neg hne, lookupA] at hd
      exact Option.noConfusion hd
    · intro _
      exact logDepths_single_ne (inputs.map scale_value) s 0 hs

theorem minlog_push (visited log : List (List ℤ × ℕ)) (nv : List ℤ) (nd : ℕ)
    (hp : shouldPush visited nv nd = true)
    (h : ∀ s, (∀ d, lookupA visited s = some d →
        d ∈ logDepths log s ∧ ∀ d' ∈ logDepths log s, d ≤ d') ∧
      (lookupA visited s = none → logDepths log s = [])) :
    ∀ s, (∀ d, lookupA (insertA visited nv nd) s = some d →
        d ∈ logDepths (log ++ [(nv, nd)]) s ∧
        ∀ d' ∈ logDepths (log ++ [(nv, nd)]) s, d ≤ d') ∧
      (lookupA (insertA visited nv nd) s = none →
        logDepths (log ++ [(nv, nd)]) s = []) := by
  intro s
  by_cases hs : s = nv
  · subst hs
    constructor
    · intro d hd
      rw [lookupA_insertA_self] at hd
      have hdn : d = nd := (Option.some_inj.mp hd).symm
      subst hdn
      rw [logDepths_append, logDepths_single_self]
      constructor
      · exact List.mem_append.mpr (Or.inr (List.mem_cons_self _ _))
      · intro d' hd'
        rcases List.mem_append.mp hd' with hold | hnew
        · rcases (shouldPush_iff visited s d).mp hp with hn | ⟨d0, he, hlt⟩
          · rw [(h s).2 hn] at hold
            exact absurd hold (List.not_mem_nil d')
          · have hle := ((h s).1 d0 he).2 d' hold
            omega
        · have hde : d' = d := List.mem_singleton.mp hnew
          omega
    · intro hn
      rw [lookupA_insertA_self] at hn
      exact Option.noConfusion hn
  · have hlk : lookupA (insertA visited nv nd) s = lookupA visited s :=
      lookupA_insertA_ne visited nv nd s hs
    have hld : logDepths (log ++ [(nv, nd)]) s = logDepths log s := by
      rw [logDepths_append, logDepths_single_ne nv s nd hs, List.append_nil]
    rw [hlk, hld]
    exact h s

theorem pushIfBetterT_minlog (tgt : ℤ) (ct : CfgT) (nv : List ℤ) (np : List PathStep) (nd : ℕ)
    (h : MinLog ct) : MinLog (pushIfBetterT tgt ct nv np nd) := by
  unfold pushIfBetterT
  by_cases hp : shouldPush ct.cfg.visited nv nd
  · rw [if_pos hp]
    exact fun s => minlog_push ct.cfg.visited ct.log nv nd hp h s
  · rw [if_neg hp]
    exact h

theorem expandT_minlog (tgt : ℤ) (cur : Node) (ct : CfgT) (h : MinLog ct) :
    MinLog (expandT tgt cur ct) := by
  unfold expandT
  generalize succList cur.values = L
  induction L generalizing ct with
  | nil => exact h
  | cons sp rest ih =>
    rw [List.foldl_cons]
    exact ih _ (pushIfBetterT_minlog tgt ct sp.1 (cur.path ++ [sp.2]) (cur.depth + 1) h)

theorem searchStepT_minlog (tgt mgn : ℤ) (ct ct' : CfgT) (h : searchStepT tgt mgn ct = some ct')
    (hm : MinLog ct) : MinLog ct' := by
  unfold searchStepT at h
  cases hpop : heapPop ct.cfg.queue with
  | none => rw [hpop] at h; exact Option.noConfusion h
  | some pr =>
    obtain ⟨cur, rest⟩ := pr
    simp only [hpop] at h
    cases hff : find_final_and_remainder cur.values tgt mgn with
    | some fr => simp only [hff] at h; exact Option.noConfusion h
    | none =>
      simp only [hff] at h
      have hm2 : MinLog ⟨⟨rest, ct.cfg.visited⟩, ct.log⟩ := fun s => hm s
      by_cases hd : MAX_DEPTH ≤ cur.depth
      · rw [if_pos hd] at h
        rw [← Option.some_inj.mp h]
        exact hm2
      · rw [if_neg hd] at h
        rw [← Option.some_inj.mp h]
        exact expandT_minlog tgt cur _ hm2

theorem iterT_minlog_go (tgt mgn : ℤ) (k : ℕ) :
    ∀ ct ct', MinLog ct → iterT tgt mgn k ct = some ct' → MinLog ct' := by
  induction k with
  | zero =>
    intro ct ct' hm h
    rw [← Option.some_inj.mp h]
    exact hm
  | succ kk ih =>
    intro ct ct' hm h
    rw [iterT] at h
    cases hs : searchStepT tgt mgn ct with
    | none =>
      simp only [hs] at h
      exact Option.noConfusion h
    | some ct1 =>
      simp only [hs] at h
      exact ih ct1 ct' (searchStepT_minlog tgt mgn ct ct1 hs hm) h

/-- C5 (confirmed).  (1) A generated successor is pushed onto the frontier iff
its state is absent from the visited table or recorded there at a depth
strictly greater than the child depth; (2) on a push the table entry is set to
the child depth, one node is pushed and the enqueue is logged, and on a
non-push nothing changes (so a state *is* re-enqueued whenever it is reached at
a strictly smaller depth); (3) the instrumented loop projects onto the plain
search loop; and (4) along any run from the initial configuration the visited
table always maps each recorded state to the smallest depth at which that state
has been enqueued so far. -/
theorem visited_table_min_depth :
    (∀ (visited : List (List ℤ × ℕ)) (nv : List ℤ) (nd : ℕ),
      shouldPush visited nv nd = true ↔
        (lookupA visited nv = none ∨ ∃ d0, lookupA visited nv = some d0 ∧ nd < d0)) ∧
    (∀ (tgt : ℤ) (ct : CfgT) (nv : List ℤ) (np : List PathStep) (nd : ℕ),
      (shouldPush ct.cfg.visited nv nd = true →
        (pushIfBetterT tgt ct nv np nd).cfg.queue.length = ct.cfg.queue.length + 1 ∧
        lookupA (pushIfBetterT tgt ct nv np nd).cfg.visited nv = some nd ∧
        (pushIfBetterT tgt ct nv np nd).log = ct.log ++ [(nv, nd)]) ∧
      (shouldPush ct.cfg.visited nv nd = false → pushIfBetterT tgt ct nv np nd = ct)) ∧
    (∀ (tgt mgn : ℤ) (ct ct' : CfgT), searchStepT tgt mgn ct = some ct' →
      searchStep tgt mgn ct.cfg = StepRes.next ct'.cfg) ∧
    (∀ (tgt mgn : ℤ) (inputs : List ℚ) (k : ℕ) (ct : CfgT),
      iterT tgt mgn k (initialCfgT inputs tgt) = some ct → MinLog ct) := by
  refine ⟨shouldPush_iff, ?_, searchStepT_proj, ?_⟩
  · intro tgt ct nv np nd
    constructor
    · intro hp
      unfold pushIfBetterT
      rw [if_pos hp]
      refine ⟨?_, ?_, rfl⟩
      · exact heapPush_length ct.cfg.queue _
      · exact lookupA_insertA_self ct.cfg.visited nv nd
    · intro hp
      unfold pushIfBetterT
      rw [if_neg (by rw [hp]; exact Bool.false_ne_true)]
  · intro tgt mgn inputs k ct h
    exact iterT_minlog_go tgt mgn k (initialCfgT inputs tgt) ct
      (initialCfgT_minlog inputs tgt) h

/-- Witness for C5: pushing state `[0]` at depth 0 into the empty configuration
records it at depth 0 and logs the enqueue. -/
theorem visited_table_min_depth_witness :
    (pushIfBetterT 0 ⟨⟨[], []⟩, []⟩ [0] [] 0).cfg.queue.length =
      (⟨⟨[], []⟩, []⟩ : CfgT).cfg.queue.length + 1 ∧
    lookupA (pushIfBetterT 0 ⟨⟨[], []⟩, []⟩ [0] [] 0).cfg.visited [0] = some 0 ∧
    (pushIfBetterT 0 ⟨⟨[], []⟩, []⟩ [0] [] 0).log = (⟨⟨[], []⟩, []⟩ : CfgT).log ++ [([0], 0)] :=
  (visited_table_min_depth.2.1 0 ⟨⟨[], []⟩, []⟩ [0] [] 0).1 (by decide)

/-! ### C3: on exhaustion no reachable state within the horizon is a goal -/

/-- A state without any value within scaled margin of the scaled target. -/
def GoalFree (tgt mgn : ℤ) (s : List ℤ) : Prop :=
  find_final_and_remainder s tgt mgn = none

/-- The global invariant of the exhaustion argument: the root is recorded at
depth 0; every frontier node is recorded at most at its depth; every recorded
state is on the frontier or goal-free; and every recorded state is either
witnessed on the frontier at its recorded depth, at the horizon, or fully
expanded (all successors recorded within one more unit of depth). -/
def InvC3 (tgt mgn : ℤ) (root : List ℤ) (c : Cfg) : Prop :=
  lookupA c.visited root = some 0 ∧
  (∀ node ∈ c.queue, ∃ d, lookupA c.visited node.values = some d ∧ d ≤ node.depth) ∧
  (∀ s d, lookupA c.visited s = some d →
    (∃ node ∈ c.queue, node.values = s) ∨ GoalFree tgt mgn s) ∧
  (∀ s d, lookupA c.visited s = some d →
    (∃ node ∈ c.queue, node.values = s ∧ node.depth ≤ d) ∨ MAX_DEPTH ≤ d ∨
    (∀ p ∈ succList s, ∃ d', lookupA c.visited p.1 = some d' ∧ d' ≤ d + 1))

/-- The invariant carried through one expansion fold: `base` is the
configuration right after the pop (frontier `rest`, visited table unchanged),
`nd` is the common depth of all pushes of this expansion, and `processed` are
the successor slots handled so far. -/
structure FoldInv (tgt mgn : ℤ) (root : List ℤ) (base : Cfg) (nd : ℕ)
    (processed : List (List ℤ × PathStep)) (c : Cfg) : Prop where
  rootRec : lookupA c.visited root = some 0
  inv0 : ∀ node ∈ c.queue, ∃ d, lookupA c.visited node.values = some d ∧ d ≤ node.depth
  inv1 : ∀ s d, lookupA c.visited s = some d →
    (∃ node ∈ c.queue, node.values = s) ∨ GoalFree tgt mgn s
  mono : ∀ s d0, lookupA base.visited s = some d0 →
    ∃ d', lookupA c.visited s = some d' ∧ d' ≤ d0
  fresh : ∀ s d', lookupA c.visited s = some d' →
    lookupA base.visited s = some d' ∨ ∃ node ∈ c.queue, node.values = s ∧ node.depth ≤ d'
  procRec : ∀ p ∈ processed, ∃ d', lookupA c.visited p.1 = some d' ∧ d' ≤ nd
  qmono : ∀ node ∈ base.queue, node ∈ c.queue

theorem foldInv_push (tgt mgn : ℤ) (root : List ℤ) (base : Cfg) (nd : ℕ) (hnd : 1 ≤ nd)
    (processed : List (List ℤ × PathStep)) (c : Cfg) (q : List ℤ × PathStep)
    (np : List PathStep) (hJ : FoldInv tgt mgn root base nd processed c) :
    FoldInv tgt mgn root base nd (processed ++ [q]) (pushIfBetter tgt c q.1 np nd) := by
  unfold pushIfBetter
  by_cases hp : shouldPush c.visited q.1 nd
  case neg =>
    rw [if_neg hp]
    refine ⟨hJ.rootRec, hJ.inv0, hJ.inv1, hJ.mono, hJ.fresh, ?_, hJ.qmono⟩
    intro p hpmem
    rcases List.mem_append.mp hpmem with hold | hnew
    · exact hJ.procRec p hold
    · have hpq : p = q := List.mem_singleton.mp hnew
      subst hpq
      unfold shouldPush at hp
      cases hlk : lookupA c.visited p.1 with
      | none =>
        simp only [hlk] at hp
        exact absurd trivial hp
      | some d0 =>
        simp only [hlk, decide_eq_true_eq] at hp
        exact ⟨d0, rfl, by omega⟩
  case pos =>
    rw [if_pos hp]
    have hqmem : ∀ n : Node, n ∈ heapPush c.queue ⟨q.1, np, nd, calculate_heuristic q.1 tgt⟩ ↔
        n = ⟨q.1, np, nd, calculate_heuristic q.1 tgt⟩ ∨ n ∈ c.queue := by
      intro n
      rw [(heapPush_perm c.queue _).mem_iff, List.mem_cons]
    have hcond := (shouldPush_iff c.visited q.1 nd).mp hp
    have hqroot : q.1 ≠ root := by
      intro he
      rw [he] at hcond
      rcases hcond with hn | ⟨d0, he0, hlt⟩
      · rw [hJ.rootRec] at hn; exact Option.noConfusion hn
      · rw [hJ.rootRec] at he0
        have hd0 : d0 = 0 := (Option.some_inj.mp he0).symm
        omega
    refine ⟨?_, ?_, ?_, ?_, ?_, ?_, ?_⟩
    · rw [lookupA_insertA_ne c.visited q.1 nd root (fun hh => hqroot hh.symm)]
      exact hJ.rootRec
    · intro node hn
      rcases (hqmem node).mp hn with he | hold
      · subst he
        exact ⟨nd, lookupA_insertA_self c.visited q.1 nd, le_refl nd⟩
      · obtain ⟨d, hd, hdn⟩ := hJ.inv0 node hold
        by_cases he2 : node.values = q.1
        · rw [he2] at hd
          rcases hcond with hn2 | ⟨d0, he0, hlt⟩
          · rw [hd] at hn2; exact Option.noConfusion hn2
          · rw [hd] at he0
            have hdd : d = d0 := Option.some_inj.mp he0
            refine ⟨nd, ?_, by omega⟩
            rw [he2]
            exact lookupA_insertA_self c.visited q.1 nd
        · exact ⟨d, by rw [lookupA_insertA_ne c.visited q.1 nd node.values he2]; exact hd, hdn⟩
    · intro s d hd
      by_cases hs : s = q.1
      · subst hs
        exact Or.inl ⟨⟨q.1, np, nd, calculate_heuristic q.1 tgt⟩,
          (hqmem _).mpr (Or.inl rfl), rfl⟩
      · rw [lookupA_insertA_ne c.visited q.1 nd s hs] at hd
        rcases hJ.inv1 s d hd with ⟨node, hn, hv⟩ | hgf
        · exact Or.inl ⟨node, (hqmem node).mpr (Or.inr hn), hv⟩
        · exact Or.inr hgf
    · intro s d0 hb
      obtain ⟨d1, hc1, hle1⟩ := hJ.mono s d0 hb
      by_cases hs : s = q.1
      · subst hs
        rcases hcond with hn2 | ⟨d00, he0, hlt⟩
        · rw [hc1] at hn2; exact Option.noConfusion hn2
        · rw [hc1] at he0
          have hdd : d1 = d00 := Option.some_inj.mp he0
          exact ⟨nd, lookupA_insertA_self c.visited q.1 nd, by omega⟩
      · exact ⟨d1, by rw [lookupA_insertA_ne c.visited q.1 nd s hs]; exact hc1, hle1⟩
    · intro s d' hd'
      by_cases hs : s = q.1
      · subst hs
        rw [lookupA_insertA_self c.visited q.1 nd] at hd'
        have hdn : d' = nd := (Option.some_inj.mp hd').symm
        refine Or.inr ⟨⟨q.1, np, nd, calculate_heuristic q.1 tgt⟩,
          (hqmem _).mpr (Or.inl rfl), rfl, ?_⟩
        show nd ≤ d'
        omega
      · rw [lookupA_insertA_ne c.visited q.1 nd s hs] at hd'
        rcases hJ.fresh s d' hd' with hbase | ⟨node, hn, hv, hdep⟩
        · exact Or.inl hbase
        · exact Or.inr ⟨node, (hqmem node).mpr (Or.inr hn), hv, hdep⟩
    · intro p hpmem
      rcases List.mem_append.mp hpmem with hold | hnew
      · obtain ⟨d', hce, hle⟩ := hJ.procRec p hold
        by_cases hs : p.1 = q.1
        · refine ⟨nd, ?_, le_refl nd⟩
          rw [hs]
          exact lookupA_insertA_self c.visited q.1 nd
        · exact ⟨d', by rw [lookupA_insertA_ne c.visited q.1 nd p.1 hs]; exact hce, hle⟩
      · have hpq : p = q := List.mem_singleton.mp hnew
        subst hpq
        exact ⟨nd, lookupA_insertA_self c.visited p.1 nd, le_refl nd⟩
    · intro node hb
      exact (hqmem node).mpr (Or.inr (hJ.qmono node hb))

theorem foldInv_fold (tgt mgn : ℤ) (root : List ℤ) (base : Cfg) (nd : ℕ) (hnd : 1 ≤ nd)
    (g : (List ℤ × PathStep) → List PathStep) :
    ∀ (L processed : List (List ℤ × PathStep)) (c : Cfg),
      FoldInv tgt mgn root base nd processed c →
      FoldInv tgt mgn root base nd (processed ++ L)
        (L.foldl (fun c' sp => pushIfBetter tgt c' sp.1 (g sp) nd) c) := by
  intro L
  induction L with
  | nil =>
    intro processed c h
    simpa using h
  | cons sp rest ih =>
    intro processed c h
    rw [List.foldl_cons]
    have h1 := foldInv_push tgt mgn root base nd hnd processed c sp (g sp) h
    have h2 := ih (processed ++ [sp]) _ h1
    rw [List.append_assoc] at h2
    simpa using h2

theorem lookupA_singleton_inv (k0 : List ℤ) (d0 : ℕ) (s : List ℤ) (d : ℕ)
    (h : lookupA [(k0, d0)] s = some d) : s = k0 ∧ d = d0 := by
  rw [lookupA] at h
  by_cases he : k0 = s
  · rw [if_pos he] at h
    exact ⟨he.symm, (Option.some_inj.mp h).symm⟩
  · rw [if_neg he, lookupA] at h
    exact Option.noConfusion h

theorem initialCfg_InvC3 (tgt mgn : ℤ) (inputs : List ℚ) :
    InvC3 tgt mgn (inputs.map scale_value) (initialCfg inputs tgt) := by
  have hq : ∀ n : Node, n ∈ (initialCfg inputs tgt).queue ↔
      n = ⟨inputs.map scale_value, [], 0,
        calculate_heuristic (inputs.map scale_value) tgt⟩ := by
    intro n
    show n ∈ heapPush [] _ ↔ _
    rw [(heapPush_perm [] _).mem_iff, List.mem_cons]
    simp
  have hv : (initialCfg inputs tgt).visited = [(inputs.map scale_value, 0)] := rfl
  refine ⟨?_, ?_, ?_, ?_⟩
  · rw [hv, lookupA, if_pos rfl]
  · intro node hn
    have he := (hq node).mp hn
    subst he
    refine ⟨0, ?_, Nat.zero_le _⟩
    rw [hv, lookupA, if_pos rfl]
  · intro s d hd
    rw [hv] at hd
    obtain ⟨hs, _⟩ := lookupA_singleton_inv _ 0 s d hd
    refine Or.inl ⟨⟨inputs.map scale_value, [], 0,
      calculate_heuristic (inputs.map scale_value) tgt⟩, (hq _).mpr rfl, ?_⟩
    rw [hs]
  · intro s d hd
    rw [hv] at hd
    obtain ⟨hs, hd0⟩ := lookupA_singleton_inv _ 0 s d hd
    refine Or.inl ⟨⟨inputs.map scale_value, [], 0,
      calculate_heuristic (inputs.map scale_value) tgt⟩, (hq _).mpr rfl, ?_, ?_⟩
    · rw [hs]
    · show 0 ≤ d
      omega

theorem stepNext_preserves_InvC3 (tgt mgn : ℤ) (root : List ℤ) (c c' : Cfg)
    (h : searchStep tgt mgn c = StepRes.next c') (hinv : InvC3 tgt mgn root c) :
    InvC3 tgt mgn root c' := by
  obtain ⟨hroot, hinv0, hinv1, hinv2⟩ := hinv
  obtain ⟨cur, rest, hpop, hff, hbr⟩ := searchStep_next_inv tgt mgn c c' h
  have hqperm := heapPop_perm c.queue cur rest hpop
  have hmemq : ∀ n : Node, n ∈ c.queue ↔ n = cur ∨ n ∈ rest := by
    intro n
    rw [hqperm.mem_iff, List.mem_cons]
  have hgfcur : GoalFree tgt mgn cur.values := hff
  rcases hbr with ⟨hd6, he⟩ | ⟨hd6, he⟩
  · subst he
    refine ⟨hroot, ?_, ?_, ?_⟩
    · intro node hn
      exact hinv0 node ((hmemq node).mpr (Or.inr hn))
    · intro s d hd
      rcases hinv1 s d hd with ⟨node, hn, hv⟩ | hgf
      · rcases (hmemq node).mp hn with he2 | hr
        · subst he2
          exact Or.inr (hv ▸ hgfcur)
        · exact Or.inl ⟨node, hr, hv⟩
      · exact Or.inr hgf
    · intro s d hd
      rcases hinv2 s d hd with ⟨node, hn, hv, hdep⟩ | h6 | hcl
      · rcases (hmemq node).mp hn with he2 | hr
        · subst he2
          exact Or.inr (Or.inl (le_trans hd6 hdep))
        · exact Or.inl ⟨node, hr, hv, hdep⟩
      · exact Or.inr (Or.inl h6)
      · exact Or.inr (Or.inr hcl)
  · subst he
    have hbase : FoldInv tgt mgn root ⟨rest, c.visited⟩ (cur.depth + 1) []
        ⟨rest, c.visited⟩ := by
      refine ⟨hroot, ?_, ?_, ?_, ?_, ?_, ?_⟩
      · intro node hn
        exact hinv0 node ((hmemq node).mpr (Or.inr hn))
      · intro s d hd
        rcases hinv1 s d hd with ⟨node, hn, hv⟩ | hgf
        · rcases (hmemq node).mp hn with he2 | hr
          · subst he2
            exact Or.inr (hv ▸ hgfcur)
          · exact Or.inl ⟨node, hr, hv⟩
        · exact Or.inr hgf
      · intro s d0 hb
        exact ⟨d0, hb, le_refl d0⟩
      · intro s d' hd'
        exact Or.inl hd'
      · intro p hp2
        exact absurd hp2 (List.not_mem_nil p)
      · intro node hn
        exact hn
    have hfold := foldInv_fold tgt mgn root ⟨rest, c.visited⟩ (cur.depth + 1) (by omega)
      (fun sp => cur.path ++ [sp.2]) (succList cur.values) [] ⟨rest, c.visited⟩ hbase
    rw [List.nil_append] at hfold
    show InvC3 tgt mgn root ((succList cur.values).foldl
      (fun cc sp => pushIfBetter tgt cc sp.1 (cur.path ++ [sp.2]) (cur.depth + 1))
      ⟨rest, c.visited⟩)
    obtain ⟨hroot2, hinv02, hinv12, hmono2, hfresh2, hproc2, hqmono2⟩ := hfold
    refine ⟨hroot2, hinv02, hinv12, ?_⟩
    intro s d hd
    rcases hfresh2 s d hd with hbase2 | ⟨node, hn, hv, hdep⟩
    · rcases hinv2 s d hbase2 with ⟨node, hn, hv, hdep⟩ | h6 | hcl
      · rcases (hmemq node).mp hn with he2 | hr
        · subst he2
          refine Or.inr (Or.inr ?_)
          intro p hp2
          rw [← hv] at hp2
          obtain ⟨d', hce, hle⟩ := hproc2 p hp2
          exact ⟨d', hce, by omega⟩
        · exact Or.inl ⟨node, hqmono2 node hr, hv, hdep⟩
      · exact Or.inr (Or.inl h6)
      · refine Or.inr (Or.inr ?_)
        intro p hp2
        obtain ⟨d1, hc1, hle1⟩ := hcl p hp2
        obtain ⟨d2, hc2, hle2⟩ := hmono2 p.1 d1 hc1
        exact ⟨d2, hc2, by omega⟩
    · exact Or.inl ⟨node, hn, hv, hdep⟩

theorem searchLoop_exhausted_final (tgt mgn : ℤ) (root : List ℤ) (fuel : ℕ) :
    ∀ c, InvC3 tgt mgn root c → searchLoop tgt mgn fuel c = some none →
      ∃ vf : List (List ℤ × ℕ),
        lookupA vf root = some 0 ∧
        (∀ s d, lookupA vf s = some d → GoalFree tgt mgn s) ∧
        (∀ s d, lookupA vf s = some d → MAX_DEPTH ≤ d ∨
          ∀ p ∈ succList s, ∃ d', lookupA vf p.1 = some d' ∧ d' ≤ d + 1) := by
  induction fuel with
  | zero =>
    intro c _ h
    exact Option.noConfusion h
  | succ f ih =>
    intro c hinv h
    rw [searchLoop] at h
    cases hstep : searchStep tgt mgn c with
    | found a =>
      rw [hstep] at h
      exact Option.noConfusion (Option.some_inj.mp h)
    | exhausted =>
      have hq := searchStep_exhausted_inv tgt mgn c hstep
      obtain ⟨hroot, hinv0, hinv1, hinv2⟩ := hinv
      refine ⟨c.visited, hroot, ?_, ?_⟩
      · intro s d hd
        rcases hinv1 s d hd with ⟨node, hn, _⟩ | hgf
        · rw [hq] at hn
          exact absurd hn (List.not_mem_nil node)
        · exact hgf
      · intro s d hd
        rcases hinv2 s d hd with ⟨node, hn, _, _⟩ | h6 | hcl
        · rw [hq] at hn
          exact absurd hn (List.not_mem_nil node)
        · exact Or.inl h6
        · exact Or.inr hcl
    | next c' =>
      rw [hstep] at h
      exact ih c' (stepNext_preserves_InvC3 tgt mgn root c c' hstep hinv) h

theorem final_reach (tgt mgn : ℤ) (root : List ℤ) (vf : List (List ℤ × ℕ))
    (h0 : lookupA vf root = some 0)
    (hc : ∀ s d, lookupA vf s = some d → MAX_DEPTH ≤ d ∨
      ∀ p ∈ succList s, ∃ d', lookupA vf p.1 = some d' ∧ d' ≤ d + 1) :
    ∀ (k : ℕ) (s : List ℤ), ReachIn root k s → k ≤ MAX_DEPTH →
      ∃ d, lookupA vf s = some d ∧ d ≤ k := by
  intro k s hr
  induction hr with
  | refl =>
    intro _
    exact ⟨0, h0, Nat.le_refl 0⟩
  | step hr2 hmem ih =>
    rename_i k' s1 s2 st
    intro hk
    obtain ⟨d, hd, hdk⟩ := ih (by omega)
    rcases hc s1 d hd with h6 | hcl
    · exfalso
      have hmd : MAX_DEPTH = 6 := rfl
      rw [hmd] at h6 hk
      omega
    · obtain ⟨d', hd', hle⟩ := hcl (s2, st) hmem
      exact ⟨d', hd', by omega⟩

/-- C3 (confirmed).  If `shortest_path_to_target` reports EXHAUSTED (a plain
`none` answer inside the fuel wrapper, not an error), then no state reachable
from the scaled root by at most `MAX_DEPTH = 6` split/combine operations
contains a value within the scaled margin of the scaled target: the visited
table's depth relaxation only ever skips states that were already enqueued at
no greater depth, so within the horizon the search is complete. -/
theorem exhausted_no_reachable_goal (fuel : ℕ) (inputs : List ℚ) (target margin : ℚ)
    (h : shortest_path_to_target fuel inputs target margin = some none) :
    ∀ (k : ℕ) (s : List ℤ), k ≤ MAX_DEPTH → ReachIn (inputs.map scale_value) k s →
      ∀ v ∈ s, ¬ |v - scale_value target| ≤ scale_value margin := by
  unfold shortest_path_to_target at h
  obtain ⟨vf, h0, hg, hc⟩ := searchLoop_exhausted_final (scale_value target)
    (scale_value margin) (inputs.map scale_value) fuel _
    (initialCfg_InvC3 (scale_value target) (scale_value margin) inputs) h
  intro k s hk hr v hv
  obtain ⟨d, hd, _⟩ := final_reach (scale_value target) (scale_value margin)
    (inputs.map scale_value) vf h0 hc k s hr hk
  have hgf := hg s d hd
  unfold GoalFree at hgf
  rw [find_final_none_iff] at hgf
  exact hgf v hv

set_option maxRecDepth 100000 in
/-- Witness for C3: the run on input `[0.0]` with target `1.0` and margin `0.0`
exhausts, and indeed the root state's value `0` is not within the scaled margin
of the scaled target `1000`. -/
theorem exhausted_no_reachable_goal_witness :
    ¬ |(0 : ℤ) - scale_value 1| ≤ scale_value 0 :=
  exhausted_no_reachable_goal 14 [0] 1 0 (by decide) 0 (List.map scale_value [0])
    (by decide) ReachIn.refl 0 (by decide)

/-! ### Termination: a potential-function argument -/

/-- The L1 norm of a scaled state: the sum of the absolute values of its entries. -/
def stateL1 (s : List ℤ) : ℤ := (s.map (fun v => |v|)).sum

theorem stateL1_nonneg (s : List ℤ) : 0 ≤ stateL1 s := by
  apply List.sum_nonneg
  intro x hx
  rw [List.mem_map] at hx
  obtain ⟨v, _, he⟩ := hx
  rw [← he]
  exact abs_nonneg v

theorem mem_abs_le_stateL1 (s : List ℤ) (v : ℤ) (hv : v ∈ s) : |v| ≤ stateL1 s := by
  apply List.single_le_sum
  · intro x hx
    rw [List.mem_map] at hx
    obtain ⟨w, _, he⟩ := hx
    rw [← he]
    exact abs_nonneg w
  · exact List.mem_map_of_mem _ hv

theorem stateL1_append (a b : List ℤ) : stateL1 (a ++ b) = stateL1 a + stateL1 b := by
  simp [stateL1]

theorem stateL1_eraseIdx (l : List ℤ) (i : ℕ) (hi : i < l.length) :
    stateL1 (l.eraseIdx i) = stateL1 l - |l.getD i 0| := by
  have hp := (perm_cons_eraseIdx l i hi).map (fun v => |v|)
  have hs := hp.sum_eq
  simp only [List.map_cons, List.sum_cons] at hs
  have hd : (default : ℤ) = 0 := rfl
  rw [hd] at hs
  unfold stateL1
  omega

theorem splitTwoVals_L1 (vals : List ℤ) (i : ℕ) (hi : i < vals.length) :
    stateL1 (splitTwoVals vals i) ≤ stateL1 vals := by
  simp only [splitTwoVals, split_into_two]
  rw [stateL1_append, stateL1_eraseIdx vals i hi, scale_half]
  have h2 := two_abs_truncQ_half (vals.getD i 0)
  have hpair : stateL1 [truncQ ((vals.getD i 0 : ℚ) / 2), truncQ ((vals.getD i 0 : ℚ) / 2)] =
      |truncQ ((vals.getD i 0 : ℚ) / 2)| + |truncQ ((vals.getD i 0 : ℚ) / 2)| := by
    simp [stateL1]
  rw [hpair]
  omega

theorem splitThreeVals_L1 (vals : List ℤ) (i : ℕ) (hi : i < vals.length) :
    stateL1 (splitThreeVals vals i) ≤ stateL1 vals := by
  simp only [splitThreeVals, split_into_three]
  rw [stateL1_append, stateL1_eraseIdx vals i hi, scale_third]
  have h3 := three_abs_truncQ_third (vals.getD i 0)
  have htr : stateL1 [truncQ ((vals.getD i 0 : ℚ) / 3), truncQ ((vals.getD i 0 : ℚ) / 3),
      truncQ ((vals.getD i 0 : ℚ) / 3)] =
      |truncQ ((vals.getD i 0 : ℚ) / 3)| + |truncQ ((vals.getD i 0 : ℚ) / 3)| +
        |truncQ ((vals.getD i 0 : ℚ) / 3)| := by
    simp [stateL1]
    ring
  rw [htr]
  omega

theorem combineTwoVals_L1 (vals : List ℤ) (i j : ℕ) (hij : i < j) (hj : j < vals.length) :
    stateL1 (combineTwoVals vals i j) ≤ stateL1 vals := by
  have hi : i < vals.length := lt_trans hij hj
  have hli : (vals.eraseIdx i).length = vals.length - 1 := length_eraseIdx_lt vals i hi
  have hj1 : j - 1 < (vals.eraseIdx i).length := by omega
  simp only [combineTwoVals]
  rw [stateL1_append, stateL1_eraseIdx _ (j - 1) hj1, stateL1_eraseIdx vals i hi]
  have hsh : (vals.eraseIdx i).getD (j - 1) 0 = vals.getD j 0 := by
    have h := eraseIdx_getD_ge vals i (j - 1) 0 (by omega) (by omega)
    have hj11 : j - 1 + 1 = j := by omega
    rw [hj11] at h
    exact h
  rw [hsh, scale_combine_two]
  have habs := abs_add (vals.getD i 0) (vals.getD j 0)
  have hone : stateL1 [vals.getD i 0 + vals.getD j 0] = |vals.getD i 0 + vals.getD j 0| := by
    simp [stateL1]
  rw [hone]
  omega

theorem combineThreeVals_L1 (vals : List ℤ) (i j k : ℕ)
    (hij : i < j) (hjk : j < k) (hk : k < vals.length) :
    stateL1 (combineThreeVals vals i j k) ≤ stateL1 vals := by
  have hj : j < vals.length := lt_trans hjk hk
  have hi : i < vals.length := lt_trans hij hj
  have hli : (vals.eraseIdx i).length = vals.length - 1 := length_eraseIdx_lt vals i hi
  have hj1 : j - 1 < (vals.eraseIdx i).length := by omega
  have hlij : ((vals.eraseIdx i).eraseIdx (j - 1)).length = vals.length - 2 := by
    rw [length_eraseIdx_lt _ (j - 1) hj1, hli]
    omega
  have hk2 : k - 2 < ((vals.eraseIdx i).eraseIdx (j - 1)).length := by omega
  simp only [combineThreeVals]
  rw [stateL1_append, stateL1_eraseIdx _ (k - 2) hk2, stateL1_eraseIdx _ (j - 1) hj1,
    stateL1_eraseIdx vals i hi]
  have hsh1 : (vals.eraseIdx i).getD (j - 1) 0 = vals.getD j 0 := by
    have h := eraseIdx_getD_ge vals i (j - 1) 0 (by omega) (by omega)
    have hj11 : j - 1 + 1 = j := by omega
    rw [hj11] at h
    exact h
  have hsh2 : ((vals.eraseIdx i).eraseIdx (j - 1)).getD (k - 2) 0 = vals.getD k 0 := by
    have h1 : ((vals.eraseIdx i).eraseIdx (j - 1)).getD (k - 2) 0 =
        (vals.eraseIdx i).getD (k - 2 + 1) 0 :=
      eraseIdx_getD_ge (vals.eraseIdx i) (j - 1) (k - 2) 0 (by omega) (by omega)
    have h2 : (vals.eraseIdx i).getD (k - 1) 0 = vals.getD (k - 1 + 1) 0 :=
      eraseIdx_getD_ge vals i (k - 1) 0 (by omega) (by omega)
    have e1 : k - 2 + 1 = k - 1 := by omega
    have e2 : k - 1 + 1 = k := by omega
    rw [e1] at h1
    rw [e2] at h2
    rw [h1, h2]
  rw [hsh1, hsh2, scale_combine_three]
  have habs1 := abs_add (vals.getD i 0 + vals.getD j 0) (vals.getD k 0)
  have habs2 := abs_add (vals.getD i 0) (vals.getD j 0)
  have hone : stateL1 [vals.getD i 0 + vals.getD j 0 + vals.getD k 0] =
      |vals.getD i 0 + vals.getD j 0 + vals.getD k 0| := by
    simp [stateL1]
  rw [hone]
  omega

/-- One operation never increases the L1 norm of the scaled state. -/
theorem succList_L1_le (vals : List ℤ) (p : List ℤ × PathStep) (hp : p ∈ succList vals) :
    stateL1 p.1 ≤ stateL1 vals := by
  rcases succList_mem_cases vals p hp with ⟨i, hi, he⟩ | ⟨i, hi, he⟩ |
    ⟨i, j, hij, hj, he⟩ | ⟨i, j, k, hij, hjk, hk, he⟩
  · rw [he]; exact splitTwoVals_L1 vals i hi
  · rw [he]; exact splitThreeVals_L1 vals i hi
  · rw [he]; exact combineTwoVals_L1 vals i j hij hj
  · rw [he]; exact combineThreeVals_L1 vals i j k hij hjk hk

/-- One operation grows the state length by at most two. -/
theorem succList_length_le (vals : List ℤ) (p : List ℤ × PathStep) (hp : p ∈ succList vals) :
    p.1.length ≤ vals.length + 2 := by
  rcases succList_mem_cases vals p hp with ⟨i, hi, he⟩ | ⟨i, hi, he⟩ |
    ⟨i, j, hij, hj, he⟩ | ⟨i, j, k, hij, hjk, hk, he⟩
  · rw [he]
    simp only [splitTwoVals, split_into_two, List.length_append, List.length_cons,
      List.length_nil]
    rw [length_eraseIdx_lt vals i hi]
    omega
  · rw [he]
    simp only [splitThreeVals, split_into_three, List.length_append, List.length_cons,
      List.length_nil]
    rw [length_eraseIdx_lt vals i hi]
    omega
  · rw [he]
    have hi : i < vals.length := lt_trans hij hj
    have hli : (vals.eraseIdx i).length = vals.length - 1 := length_eraseIdx_lt vals i hi
    have hj1 : j - 1 < (vals.eraseIdx i).length := by omega
    simp only [combineTwoVals, List.length_append, List.length_cons, List.length_nil]
    rw [length_eraseIdx_lt _ (j - 1) hj1, hli]
    omega
  · rw [he]
    have hjlt : j < vals.length := lt_trans hjk hk
    have hi : i < vals.length := lt_trans hij hjlt
    have hli : (vals.eraseIdx i).length = vals.length - 1 := length_eraseIdx_lt vals i hi
    have hj1 : j - 1 < (vals.eraseIdx i).length := by omega
    have hlij : ((vals.eraseIdx i).eraseIdx (j - 1)).length = vals.length - 2 := by
      rw [length_eraseIdx_lt _ (j - 1) hj1, hli]
      omega
    have hk2 : k - 2 < ((vals.eraseIdx i).eraseIdx (j - 1)).length := by omega
    simp only [combineThreeVals, List.length_append, List.length_cons, List.length_nil]
    rw [length_eraseIdx_lt _ (k - 2) hk2, hlij]
    omega

/-- Base-`2B+2` encoding of a state whose entries lie in `[-B, B]`; injective on
such states, and bounded by `(2B+2)^length`. -/
def encState (B : ℕ) : List ℤ → ℕ
  | [] => 0
  | v :: rest => (v + (B : ℤ)).toNat + 1 + (2 * B + 2) * encState B rest

theorem encState_lt (B : ℕ) (s : List ℤ) (hb : ∀ v ∈ s, v.natAbs ≤ B) :
    encState B s < (2 * B + 2) ^ s.length := by
  induction s with
  | nil => simp [encState]
  | cons v rest ih =>
    have hv : v.natAbs ≤ B := hb v (List.mem_cons_self v rest)
    have ih2 := ih (fun w hw => hb w (List.mem_cons_of_mem v hw))
    rw [encState, List.length_cons]
    calc (v + (B : ℤ)).toNat + 1 + (2 * B + 2) * encState B rest
        < (2 * B + 2) * (encState B rest + 1) := by
          rw [Nat.mul_succ, Nat.add_comm ((2 * B + 2) * encState B rest) (2 * B + 2)]
          exact Nat.add_lt_add_right (by omega) _
      _ ≤ (2 * B + 2) * (2 * B + 2) ^ rest.length := Nat.mul_le_mul (Nat.le_refl _) ih2
      _ = (2 * B + 2) ^ (rest.length + 1) := (pow_succ' (2 * B + 2) rest.length).symm

theorem encState_inj (B : ℕ) (s1 : List ℤ) :
    ∀ s2, (∀ v ∈ s1, v.natAbs ≤ B) → (∀ v ∈ s2, v.natAbs ≤ B) →
      encState B s1 = encState B s2 → s1 = s2 := by
  induction s1 with
  | nil =>
    intro s2 _ _ he
    cases s2 with
    | nil => rfl
    | cons w rest2 =>
      rw [encState, encState] at he
      exfalso
      generalize (2 * B + 2) * encState B rest2 = P at he
      omega
  | cons v rest1 ih =>
    intro s2 h1 h2 he
    cases s2 with
    | nil =>
      rw [encState, encState] at he
      exfalso
      generalize (2 * B + 2) * encState B rest1 = P at he
      omega
    | cons w rest2 =>
      rw [encState, encState] at he
      have hv := h1 v (List.mem_cons_self v rest1)
      have hw := h2 w (List.mem_cons_self w rest2)
      have hmod : ((v + (B : ℤ)).toNat + 1) % (2 * B + 2) =
          ((w + (B : ℤ)).toNat + 1) % (2 * B + 2) := by
        have e1 := Nat.add_mul_mod_self_left ((v + (B : ℤ)).toNat + 1) (2 * B + 2)
          (encState B rest1)
        have e2 := Nat.add_mul_mod_self_left ((w + (B : ℤ)).toNat + 1) (2 * B + 2)
          (encState B rest2)
        rw [← e1, ← e2, he]
      rw [Nat.mod_eq_of_lt (by omega), Nat.mod_eq_of_lt (by omega)] at hmod
      rw [hmod] at he
      have hme := Nat.add_left_cancel he
      have hee := Nat.eq_of_mul_eq_mul_left (show 0 < 2 * B + 2 by omega) hme
      have hvw : v = w := by omega
      rw [hvw, ih rest2 (fun x hx => h1 x (List.mem_cons_of_mem v hx))
        (fun x hx => h2 x (List.mem_cons_of_mem w hx)) hee]

/-- A duplicate-free list of states with entries in `[-B, B]` and length at most
`L` has at most `(2B+2)^L` members. -/
theorem nodup_bounded_length (B L : ℕ) (l : List (List ℤ)) (hnd : l.Nodup)
    (hb : ∀ s ∈ l, (∀ v ∈ s, v.natAbs ≤ B) ∧ s.length ≤ L) :
    l.length ≤ (2 * B + 2) ^ L := by
  have hmapnd : (l.map (encState B)).Nodup := by
    refine List.Nodup.map_on ?_ hnd
    intro x hx y hy hxy
    exact encState_inj B x y (hb x hx).1 (hb y hy).1 hxy
  have hsub : (l.map (encState B)).toFinset ⊆ Finset.range ((2 * B + 2) ^ L) := by
    intro n hn
    rw [List.mem_toFinset, List.mem_map] at hn
    obtain ⟨s, hs, he⟩ := hn
    rw [Finset.mem_range, ← he]
    calc encState B s < (2 * B + 2) ^ s.length := encState_lt B s (hb s hs).1
      _ ≤ (2 * B + 2) ^ L := Nat.pow_le_pow_right (by omega) (hb s hs).2
  have hcard := Finset.card_le_card hsub
  rw [Finset.card_range, List.toFinset_card_of_nodup hmapnd, List.length_map] at hcard
  exact hcard

theorem lookupA_none_iff (m : List (List ℤ × ℕ)) (s : List ℤ) :
    lookupA m s = none ↔ ∀ e ∈ m, e.1 ≠ s := by
  induction m with
  | nil => simp [lookupA]
  | cons e rest ih =>
    rw [lookupA]
    by_cases he : e.1 = s
    · rw [if_pos he]
      simp only [List.mem_cons]
      constructor
      · intro h; exact Option.noConfusion h
      · intro h; exact absurd he (h e (Or.inl rfl))
    · rw [if_neg he, ih]
      simp only [List.mem_cons]
      constructor
      · intro h e' he'
        rcases he' with h1 | h2
        · rw [h1]; exact he
        · exact h e' h2
      · intro h e' he'
        exact h e' (Or.inr he')

theorem filter_ne_key_eq_self (m : List (List ℤ × ℕ)) (s : List ℤ)
    (h : ∀ e ∈ m, e.1 ≠ s) : m.filter (fun e => decide (e.1 ≠ s)) = m := by
  induction m with
  | nil => rfl
  | cons e rest ih =>
    rw [List.filter_cons, if_pos (decide_eq_true (h e (List.mem_cons_self e rest)))]
    rw [ih (fun e' he' => h e' (List.mem_cons_of_mem e he'))]

theorem insertA_fresh (m : List (List ℤ × ℕ)) (s : List ℤ) (d : ℕ)
    (h : lookupA m s = none) : insertA m s d = (s, d) :: m := by
  rw [insertA, filter_ne_key_eq_self m s ((lookupA_none_iff m s).mp h)]

theorem insertA_mem (m : List (List ℤ × ℕ)) (s : List ℤ) (d : ℕ) (e : List ℤ × ℕ)
    (he : e ∈ insertA m s d) : e = (s, d) ∨ e ∈ m := by
  rw [insertA, List.mem_cons] at he
  rcases he with h | h
  · exact Or.inl h
  · exact Or.inr (List.mem_of_mem_filter h)

theorem insertA_keys_nodup (m : List (List ℤ × ℕ)) (s : List ℤ) (d : ℕ)
    (hnd : (m.map (fun e => e.1)).Nodup) :
    ((insertA m s d).map (fun e => e.1)).Nodup := by
  rw [insertA, List.map_cons, List.nodup_cons]
  constructor
  · intro hmem
    rw [List.mem_map] at hmem
    obtain ⟨e, he, hk⟩ := hmem
    have hf := List.of_mem_filter he
    rw [decide_eq_true_eq] at hf
    exact hf hk
  · exact List.Nodup.sublist (List.Sublist.map _ (List.filter_sublist m)) hnd

/-- The total recorded depth of the visited table. -/
def visitedDepthSum (m : List (List ℤ × ℕ)) : ℕ := (m.map (fun e => e.2)).sum

theorem insertA_stale (m : List (List ℤ × ℕ)) (s : List ℤ) (d d0 : ℕ)
    (hnd : (m.map (fun e => e.1)).Nodup) (h : lookupA m s = some d0) :
    (insertA m s d).length = m.length ∧
    visitedDepthSum (insertA m s d) + d0 = visitedDepthSum m + d := by
  induction m with
  | nil => exact Option.noConfusion h
  | cons e rest ih =>
    rw [List.map_cons, List.nodup_cons] at hnd
    obtain ⟨hnotin, hndr⟩ := hnd
    rw [lookupA] at h
    by_cases he : e.1 = s
    · rw [if_pos he] at h
      have hd0 : d0 = e.2 := (Option.some_inj.mp h).symm
      have hrest : rest.filter (fun e' => decide (e'.1 ≠ s)) = rest := by
        apply filter_ne_key_eq_self
        intro e' he' hee
        apply hnotin
        rw [he, ← hee]
        exact List.mem_map_of_mem _ he'
      have hdrop : ¬ (decide (e.1 ≠ s) = true) := by simp [he]
      constructor
      · rw [insertA, List.filter_cons, if_neg hdrop, hrest]
        simp
      · rw [insertA, List.filter_cons, if_neg hdrop, hrest]
        simp only [visitedDepthSum, List.map_cons, List.sum_cons]
        omega
    · rw [if_neg he] at h
      have ihr := ih hndr h
      have hkeep : decide (e.1 ≠ s) = true := decide_eq_true he
      constructor
      · rw [insertA, List.filter_cons, if_pos hkeep]
        have hlen := ihr.1
        rw [insertA] at hlen
        simp only [List.length_cons] at hlen ⊢
        omega
      · rw [insertA, List.filter_cons, if_pos hkeep]
        have hsum := ihr.2
        rw [insertA] at hsum
        simp only [visitedDepthSum, List.map_cons, List.sum_cons] at hsum ⊢
        omega

/-- Structural bounds maintained by the search: duplicate-free visited keys,
bounded states in the table, and bounded (depth, length, L1) queue nodes. -/
def TermInv (B n0 : ℕ) (c : Cfg) : Prop :=
  (c.visited.map (fun e => e.1)).Nodup ∧
  (∀ e ∈ c.visited, (∀ v ∈ e.1, v.natAbs ≤ B) ∧ e.1.length ≤ n0 + 12 ∧ e.2 ≤ MAX_DEPTH) ∧
  (∀ node ∈ c.queue, node.depth ≤ MAX_DEPTH ∧ node.values.length ≤ n0 + 2 * node.depth ∧
    stateL1 node.values ≤ (B : ℤ))

/-- The termination potential: queue size, plus total recorded depth, plus seven
units for every state not yet in the visited table (out of the `K` possible). -/
def potC (K : ℕ) (c : Cfg) : ℕ :=
  c.queue.length + visitedDepthSum c.visited + 7 * (K - c.visited.length)

theorem pushIfBetter_pot (tgt : ℤ) (B n0 K : ℕ) (hKpow : (2 * B + 2) ^ (n0 + 12) ≤ K)
    (c : Cfg) (nv : List ℤ) (np : List PathStep) (nd : ℕ)
    (hti : TermInv B n0 c) (hL1 : stateL1 nv ≤ (B : ℤ))
    (hlen : nv.length ≤ n0 + 2 * nd) (hnd : nd ≤ MAX_DEPTH) :
    TermInv B n0 (pushIfBetter tgt c nv np nd) ∧
      potC K (pushIfBetter tgt c nv np nd) ≤ potC K c := by
  obtain ⟨hnd0, hvis, hq⟩ := hti
  have h6 : MAX_DEPTH = 6 := rfl
  by_cases hsp : shouldPush c.visited nv nd = true
  · rw [pushIfBetter, if_pos hsp]
    have hnatabs : ∀ v ∈ nv, v.natAbs ≤ B := by
      intro v hv
      have h1 := mem_abs_le_stateL1 nv v hv
      rw [Int.abs_eq_natAbs] at h1
      omega
    have hlen12 : nv.length ≤ n0 + 12 := by omega
    have hti' : TermInv B n0
        ⟨heapPush c.queue ⟨nv, np, nd, calculate_heuristic nv tgt⟩, insertA c.visited nv nd⟩ := by
      refine ⟨insertA_keys_nodup c.visited nv nd hnd0, ?_, ?_⟩
      · intro e he
        rcases insertA_mem c.visited nv nd e he with he2 | he2
        · rw [he2]
          exact ⟨hnatabs, hlen12, hnd⟩
        · exact hvis e he2
      · intro node hn
        have hn2 : node ∈ heapPush c.queue ⟨nv, np, nd, calculate_heuristic nv tgt⟩ := hn
        rw [(heapPush_perm c.queue _).mem_iff, List.mem_cons] at hn2
        rcases hn2 with he2 | he2
        · rw [he2]
          exact ⟨hnd, hlen, hL1⟩
        · exact hq node he2
    refine ⟨hti', ?_⟩
    have hbnd : ∀ s ∈ (insertA c.visited nv nd).map (fun e => e.1),
        (∀ v ∈ s, v.natAbs ≤ B) ∧ s.length ≤ n0 + 12 := by
      intro s hs
      rw [List.mem_map] at hs
      obtain ⟨e, he, hek⟩ := hs
      have hb := hti'.2.1 e he
      rw [← hek]
      exact ⟨hb.1, hb.2.1⟩
    have hKlen := nodup_bounded_length B (n0 + 12) _
      (insertA_keys_nodup c.visited nv nd hnd0) hbnd
    rw [List.length_map] at hKlen
    have hKlen2 : (insertA c.visited nv nd).length ≤ K := le_trans hKlen hKpow
    show (heapPush c.queue ⟨nv, np, nd, calculate_heuristic nv tgt⟩).length +
        visitedDepthSum (insertA c.visited nv nd) +
        7 * (K - (insertA c.visited nv nd).length) ≤
      c.queue.length + visitedDepthSum c.visited + 7 * (K - c.visited.length)
    rw [heapPush_length]
    cases hlook : lookupA c.visited nv with
    | none =>
      rw [insertA_fresh c.visited nv nd hlook] at hKlen2 ⊢
      simp only [visitedDepthSum, List.map_cons, List.sum_cons, List.length_cons] at hKlen2 ⊢
      omega
    | some d0 =>
      have hlt : nd < d0 := by
        rcases (shouldPush_iff c.visited nv nd).mp hsp with hnone | ⟨d1, hsome, hlt1⟩
        · rw [hlook] at hnone
          exact Option.noConfusion hnone
        · rw [hlook] at hsome
          have hdd := Option.some_inj.mp hsome
          omega
      obtain ⟨hlen2, hsum2⟩ := insertA_stale c.visited nv nd d0 hnd0 hlook
      rw [hlen2]
      omega
  · rw [pushIfBetter, if_neg hsp]
    exact ⟨⟨hnd0, hvis, hq⟩, Nat.le_refl _⟩

theorem foldl_push_pot (tgt : ℤ) (B n0 K : ℕ) (hKpow : (2 * B + 2) ^ (n0 + 12) ≤ K)
    (cur : Node) (hclen : cur.values.length ≤ n0 + 2 * cur.depth)
    (hcL1 : stateL1 cur.values ≤ (B : ℤ)) (hcd : cur.depth + 1 ≤ MAX_DEPTH) :
    ∀ (L : List (List ℤ × PathStep)), (∀ p ∈ L, p ∈ succList cur.values) →
      ∀ c, TermInv B n0 c →
        TermInv B n0 (L.foldl (fun c' sp =>
          pushIfBetter tgt c' sp.1 (cur.path ++ [sp.2]) (cur.depth + 1)) c) ∧
        potC K (L.foldl (fun c' sp =>
          pushIfBetter tgt c' sp.1 (cur.path ++ [sp.2]) (cur.depth + 1)) c) ≤ potC K c := by
  intro L
  induction L with
  | nil =>
    intro _ c hti
    exact ⟨hti, Nat.le_refl _⟩
  | cons p rest ih =>
    intro hmem c hti
    rw [List.foldl_cons]
    have hp := hmem p (List.mem_cons_self p rest)
    have hL1p : stateL1 p.1 ≤ (B : ℤ) := le_trans (succList_L1_le cur.values p hp) hcL1
    have hlenp : p.1.length ≤ n0 + 2 * (cur.depth + 1) := by
      have hle := succList_length_le cur.values p hp
      omega
    obtain ⟨hti2, hpot2⟩ := pushIfBetter_pot tgt B n0 K hKpow c p.1 (cur.path ++ [p.2])
      (cur.depth + 1) hti hL1p hlenp hcd
    obtain ⟨hti3, hpot3⟩ := ih (fun q hq => hmem q (List.mem_cons_of_mem p hq)) _ hti2
    exact ⟨hti3, le_trans hpot3 hpot2⟩

theorem stepNext_pot (tgt mgn : ℤ) (B n0 K : ℕ) (hKpow : (2 * B + 2) ^ (n0 + 12) ≤ K)
    (c c' : Cfg) (h : searchStep tgt mgn c = StepRes.next c') (hti : TermInv B n0 c) :
    TermInv B n0 c' ∧ potC K c' < potC K c := by
  obtain ⟨hnd0, hvis, hq⟩ := hti
  obtain ⟨cur, rest, hpop, _, hbr⟩ := searchStep_next_inv tgt mgn c c' h
  have hperm := heapPop_perm c.queue cur rest hpop
  have hlen : c.queue.length = rest.length + 1 := by
    rw [hperm.length_eq]
    rfl
  have hmid : TermInv B n0 ⟨rest, c.visited⟩ := by
    refine ⟨hnd0, hvis, ?_⟩
    intro node hn
    exact hq node (hperm.mem_iff.mpr (List.mem_cons_of_mem cur hn))
  have hcur := hq cur (hperm.mem_iff.mpr (List.mem_cons_self cur rest))
  have hmidlt : potC K (⟨rest, c.visited⟩ : Cfg) < potC K c := by
    show rest.length + visitedDepthSum c.visited + 7 * (K - c.visited.length) <
      c.queue.length + visitedDepthSum c.visited + 7 * (K - c.visited.length)
    omega
  rcases hbr with ⟨hd6, he⟩ | ⟨hd6, he⟩
  · subst he
    exact ⟨hmid, hmidlt⟩
  · subst he
    have hd1 : cur.depth + 1 ≤ MAX_DEPTH := by
      have h6 : MAX_DEPTH = 6 := rfl
      rw [h6] at hd6 ⊢
      omega
    obtain ⟨hti3, hpot3⟩ := foldl_push_pot tgt B n0 K hKpow cur hcur.2.1 hcur.2.2 hd1
      (succList cur.values) (fun p hp => hp) ⟨rest, c.visited⟩ hmid
    exact ⟨hti3, lt_of_le_of_lt hpot3 hmidlt⟩

theorem searchLoop_term_of_pot (tgt mgn : ℤ) (B n0 K : ℕ)
    (hKpow : (2 * B + 2) ^ (n0 + 12) ≤ K) :
    ∀ (N : ℕ) (c : Cfg), TermInv B n0 c → potC K c ≤ N →
      ∃ r, searchLoop tgt mgn (N + 1) c = some r := by
  intro N
  induction N with
  | zero =>
    intro c hti hpot
    cases hstep : searchStep tgt mgn c with
    | found a =>
      exact ⟨some a, by simp only [searchLoop, hstep]⟩
    | exhausted =>
      exact ⟨none, by simp only [searchLoop, hstep]⟩
    | next c' =>
      exfalso
      have hlt := (stepNext_pot tgt mgn B n0 K hKpow c c' hstep hti).2
      omega
  | succ N ih =>
    intro c hti hpot
    cases hstep : searchStep tgt mgn c with
    | found a =>
      exact ⟨some a, by simp only [searchLoop, hstep]⟩
    | exhausted =>
      exact ⟨none, by simp only [searchLoop, hstep]⟩
    | next c' =>
      obtain ⟨hti', hlt⟩ := stepNext_pot tgt mgn B n0 K hKpow c c' hstep hti
      obtain ⟨r, hr⟩ := ih c' hti' (by omega)
      refine ⟨r, ?_⟩
      simp only [searchLoop, hstep]
      exact hr

theorem initialCfg_TermInv (inputs : List ℚ) (tgt : ℤ) :
    TermInv ((stateL1 (inputs.map scale_value)).toNat) inputs.length (initialCfg inputs tgt) := by
  have hv : (initialCfg inputs tgt).visited = [(inputs.map scale_value, 0)] := rfl
  refine ⟨?_, ?_, ?_⟩
  · rw [hv]
    simp
  · intro e he
    rw [hv, List.mem_singleton] at he
    subst he
    refine ⟨?_, ?_, Nat.zero_le _⟩
    · intro v hvm
      have h1 := mem_abs_le_stateL1 (inputs.map scale_value) v hvm
      rw [Int.abs_eq_natAbs] at h1
      omega
    · show (inputs.map scale_value).length ≤ inputs.length + 12
      rw [List.length_map]
      omega
  · intro node hn
    have hn2 : node ∈ heapPush []
        ⟨inputs.map scale_value, [], 0, calculate_heuristic (inputs.map scale_value) tgt⟩ := hn
    rw [(heapPush_perm [] _).mem_iff, List.mem_cons] at hn2
    simp only [List.not_mem_nil, or_false] at hn2
    subst hn2
    refine ⟨Nat.zero_le _, ?_, ?_⟩
    · show (inputs.map scale_value).length ≤ inputs.length + 2 * 0
      rw [List.length_map]
      omega
    · show stateL1 (inputs.map scale_value) ≤ ((stateL1 (inputs.map scale_value)).toNat : ℤ)
      omega

/-- C9 (confirmed).  For every finite input list, target and margin, the search
loop terminates: there is a fuel bound under which `shortest_path_to_target`
returns an actual outcome (`some r`, SUCCESS or EXHAUSTED) rather than running
out of fuel.  The bound comes from a potential function: the states ever
enqueued have L1 norm at most the root's and length at most `n + 12`, so there
are finitely many of them; the visited table is duplicate-free and each
re-insert strictly decreases a state's recorded depth, so every loop iteration
strictly decreases `queue size + total recorded depth + 7·(unseen states)`. -/
theorem search_terminates (inputs : List ℚ) (target margin : ℚ) :
    ∃ fuel r, shortest_path_to_target fuel inputs target margin = some r := by
  obtain ⟨r, hr⟩ := searchLoop_term_of_pot (scale_value target) (scale_value margin)
    ((stateL1 (inputs.map scale_value)).toNat) inputs.length
    ((2 * (stateL1 (inputs.map scale_value)).toNat + 2) ^ (inputs.length + 12))
    (Nat.le_refl _)
    (potC ((2 * (stateL1 (inputs.map scale_value)).toNat + 2) ^ (inputs.length + 12))
      (initialCfg inputs (scale_value target)))
    (initialCfg inputs (scale_value target))
    (initialCfg_TermInv inputs (scale_value target))
    (Nat.le_refl _)
  exact ⟨_, r, hr⟩
